import Mathlib

/-!
# DCC-P2P-BlockChain-Chat: the chat archive and its validation

A shallow embedding of `archive.c` (`parse_message`, `add_message`, `is_valid`,
`init_archive`) and of the archive handler of `main.c` (`process_archive`).

Conventions of the embedding.

* A byte buffer is a `List Nat`; a pointer into it is an index.  Reading one byte
  at index `i` is `str.getD i 0`.
* `uint32_t`, `uint16_t`, `uint8_t` and `unsigned __int128` arithmetic is written
  with an explicit `%`.
* `MD5(data, n, out)` comes from OpenSSL.  The functions of the program take the
  digest function as the parameter `MD5`; `RFC1321.md5` is the digest of RFC 1321
  written out, used wherever a concrete run of the program is evaluated.
* The mining loop of `add_message` has no bound in the source.  It is embedded
  with a bound `fuel` on the number of digests tried: `none` means that the
  search did not return within `fuel` tries.
-/

/-! ## MD5 (RFC 1321) -/

namespace RFC1321

/-- Addition of two 32-bit words. -/
def add32 (x y : Nat) : Nat := Nat.mod (Nat.add x y) 4294967296

/-- Rotation of a 32-bit word to the left by `s` bits. -/
def rotl32 (x s : Nat) : Nat :=
  Nat.lor (Nat.mod (Nat.shiftLeft x s) 4294967296) (Nat.shiftRight x (Nat.sub 32 s))

/-- Complement of a 32-bit word. -/
def not32 (x : Nat) : Nat := Nat.xor x 4294967295

/-- The basic function F of round 1. -/
def fF (x y z : Nat) : Nat := Nat.lor (Nat.land x y) (Nat.land (not32 x) z)

/-- The basic function G of round 2. -/
def fG (x y z : Nat) : Nat := Nat.lor (Nat.land x z) (Nat.land y (not32 z))

/-- The basic function H of round 3. -/
def fH (x y z : Nat) : Nat := Nat.xor x (Nat.xor y z)

/-- The basic function I of round 4. -/
def fI (x y z : Nat) : Nat := Nat.xor y (Nat.lor x (not32 z))

/-- The transformation FF of round 1: the new value of `a`. -/
def FF (a b c d x s ac : Nat) : Nat := add32 b (rotl32 (add32 (add32 a (fF b c d)) (add32 x ac)) s)

/-- The transformation GG of round 2: the new value of `a`. -/
def GG (a b c d x s ac : Nat) : Nat := add32 b (rotl32 (add32 (add32 a (fG b c d)) (add32 x ac)) s)

/-- The transformation HH of round 3: the new value of `a`. -/
def HH (a b c d x s ac : Nat) : Nat := add32 b (rotl32 (add32 (add32 a (fH b c d)) (add32 x ac)) s)

/-- The transformation II of round 4: the new value of `a`. -/
def II (a b c d x s ac : Nat) : Nat := add32 b (rotl32 (add32 (add32 a (fI b c d)) (add32 x ac)) s)

/-- The value `x`, computed before `f` is applied to it. -/
def force {α : Type} (x : Nat) (f : Nat → α) : α :=
  match x with
  | 0 => f 0
  | n + 1 => f (n + 1)

/-- Word `g` of a 64-byte block given as one number, low-order byte first. -/
def word (x g : Nat) : Nat := Nat.land (Nat.shiftRight x (Nat.mul 32 g)) 4294967295

/-- The 64 steps of MD5Transform on the block `x`, from the registers `a b c d`: the
registers after the last step. -/
def transform (x a b c d : Nat) : Nat × Nat × Nat × Nat :=
  force (FF a b c d (word x 0) 7 0xd76aa478) fun a =>
  force (FF d a b c (word x 1) 12 0xe8c7b756) fun d =>
  force (FF c d a b (word x 2) 17 0x242070db) fun c =>
  force (FF b c d a (word x 3) 22 0xc1bdceee) fun b =>
  force (FF a b c d (word x 4) 7 0xf57c0faf) fun a =>
  force (FF d a b c (word x 5) 12 0x4787c62a) fun d =>
  force (FF c d a b (word x 6) 17 0xa8304613) fun c =>
  force (FF b c d a (word x 7) 22 0xfd469501) fun b =>
  force (FF a b c d (word x 8) 7 0x698098d8) fun a =>
  force (FF d a b c (word x 9) 12 0x8b44f7af) fun d =>
  force (FF c d a b (word x 10) 17 0xffff5bb1) fun c =>
  force (FF b c d a (word x 11) 22 0x895cd7be) fun b =>
  force (FF a b c d (word x 12) 7 0x6b901122) fun a =>
  force (FF d a b c (word x 13) 12 0xfd987193) fun d =>
  force (FF c d a b (word x 14) 17 0xa679438e) fun c =>
  force (FF b c d a (word x 15) 22 0x49b40821) fun b =>
  force (GG a b c d (word x 1) 5 0xf61e2562) fun a =>
  force (GG d a b c (word x 6) 9 0xc040b340) fun d =>
  force (GG c d a b (word x 11) 14 0x265e5a51) fun c =>
  force (GG b c d a (word x 0) 20 0xe9b6c7aa) fun b =>
  force (GG a b c d (word x 5) 5 0xd62f105d) fun a =>
  force (GG d a b c (word x 10) 9 0x02441453) fun d =>
  force (GG c d a b (word x 15) 14 0xd8a1e681) fun c =>
  force (GG b c d a (word x 4) 20 0xe7d3fbc8) fun b =>
  force (GG a b c d (word x 9) 5 0x21e1cde6) fun a =>
  force (GG d a b c (word x 14) 9 0xc33707d6) fun d =>
  force (GG c d a b (word x 3) 14 0xf4d50d87) fun c =>
  force (GG b c d a (word x 8) 20 0x455a14ed) fun b =>
  force (GG a b c d (word x 13) 5 0xa9e3e905) fun a =>
  force (GG d a b c (word x 2) 9 0xfcefa3f8) fun d =>
  force (GG c d a b (word x 7) 14 0x676f02d9) fun c =>
  force (GG b c d a (word x 12) 20 0x8d2a4c8a) fun b =>
  force (HH a b c d (word x 5) 4 0xfffa3942) fun a =>
  force (HH d a b c (word x 8) 11 0x8771f681) fun d =>
  force (HH c d a b (word x 11) 16 0x6d9d6122) fun c =>
  force (HH b c d a (word x 14) 23 0xfde5380c) fun b =>
  force (HH a b c d (word x 1) 4 0xa4beea44) fun a =>
  force (HH d a b c (word x 4) 11 0x4bdecfa9) fun d =>
  force (HH c d a b (word x 7) 16 0xf6bb4b60) fun c =>
  force (HH b c d a (word x 10) 23 0xbebfbc70) fun b =>
  force (HH a b c d (word x 13) 4 0x289b7ec6) fun a =>
  force (HH d a b c (word x 0) 11 0xeaa127fa) fun d =>
  force (HH c d a b (word x 3) 16 0xd4ef3085) fun c =>
  force (HH b c d a (word x 6) 23 0x04881d05) fun b =>
  force (HH a b c d (word x 9) 4 0xd9d4d039) fun a =>
  force (HH d a b c (word x 12) 11 0xe6db99e5) fun d =>
  force (HH c d a b (word x 15) 16 0x1fa27cf8) fun c =>
  force (HH b c d a (word x 2) 23 0xc4ac5665) fun b =>
  force (II a b c d (word x 0) 6 0xf4292244) fun a =>
  force (II d a b c (word x 7) 10 0x432aff97) fun d =>
  force (II c d a b (word x 14) 15 0xab9423a7) fun c =>
  force (II b c d a (word x 5) 21 0xfc93a039) fun b =>
  force (II a b c d (word x 12) 6 0x655b59c3) fun a =>
  force (II d a b c (word x 3) 10 0x8f0ccc92) fun d =>
  force (II c d a b (word x 10) 15 0xffeff47d) fun c =>
  force (II b c d a (word x 1) 21 0x85845dd1) fun b =>
  force (II a b c d (word x 8) 6 0x6fa87e4f) fun a =>
  force (II d a b c (word x 15) 10 0xfe2ce6e0) fun d =>
  force (II c d a b (word x 6) 15 0xa3014314) fun c =>
  force (II b c d a (word x 13) 21 0x4e0811a1) fun b =>
  force (II a b c d (word x 4) 6 0xf7537e82) fun a =>
  force (II d a b c (word x 11) 10 0xbd3af235) fun d =>
  force (II c d a b (word x 2) 15 0x2ad7d2bb) fun c =>
  force (II b c d a (word x 9) 21 0xeb86d391) fun b =>
  (a, b, c, d)

/-- One 64-byte block, given as one number, folded into the registers. -/
def processBlock (st : Nat × Nat × Nat × Nat) (x : Nat) : Nat × Nat × Nat × Nat :=
  match st with
  | (a, b, c, d) =>
    match transform x a b c d with
    | (a1, b1, c1, d1) => (add32 a a1, add32 b b1, add32 c c1, add32 d d1)

/-- A byte string packed into one number, low-order byte first: the number so far
is `acc` and holds `bits` bits.  Returns the number and its count of bits. -/
def pack : List Nat → Nat → Nat → Nat × Nat
  | [], bits, acc => (acc, bits)
  | b :: rest, bits, acc =>
    force (Nat.add acc (Nat.shiftLeft b bits)) fun acc1 =>
      force (Nat.add bits 8) fun bits1 => pack rest bits1 acc1

/-- The `n` low-order bytes of `x`, low-order byte first. -/
def leBytes : Nat → Nat → List Nat
  | 0, _ => []
  | n + 1, x => Nat.mod x 256 :: leBytes n (Nat.div x 256)

/-- The number of 64-byte blocks of the padded message, for a message of `bits`
bits: the message, a `1` bit, zeros up to 448 modulo 512, and 64 bits of length. -/
def blockCount (bits : Nat) : Nat := Nat.add (Nat.div (Nat.add bits 64) 512) 1

/-- The padded message as one number, low-order byte first in each word. -/
def pad (n bits : Nat) : Nat :=
  Nat.add (Nat.add n (Nat.shiftLeft 128 bits))
    (Nat.shiftLeft (Nat.mod bits 18446744073709551616)
      (Nat.sub (Nat.mul 512 (blockCount bits)) 64))

/-- The registers after `k` blocks of the padded message `p`. -/
def blocks : Nat → Nat → Nat × Nat × Nat × Nat → Nat × Nat × Nat × Nat
  | 0, _, st => st
  | k + 1, p, st =>
    match processBlock st (Nat.mod p (Nat.pow 2 512)) with
    | (a, b, c, d) => force (Nat.shiftRight p 512) fun p1 => blocks k p1 (a, b, c, d)

/-- The four registers as 16 bytes, each register low-order byte first. -/
def digest (st : Nat × Nat × Nat × Nat) : List Nat :=
  leBytes 4 st.1 ++ leBytes 4 st.2.1 ++ leBytes 4 st.2.2.1 ++ leBytes 4 st.2.2.2

/-- The registers after all blocks of the padded message, for a message packed
into the number `p.1` of `p.2` bits. -/
def hash (p : Nat × Nat) : Nat × Nat × Nat × Nat :=
  blocks (blockCount p.2) (pad p.1 p.2) (0x67452301, 0xefcdab89, 0x98badcfe, 0x10325476)

/-- The 16-byte MD5 digest of a byte string. -/
def md5 (msg : List Nat) : List Nat := digest (hash (pack msg 0 0))

end RFC1321

/-! ## archive.h, archive.c -/

/-- The modulus of `uint32_t` arithmetic. -/
def UINT32 : Nat := 4294967296

/-- The struct `archive` of archive.h: `str` is the serialised archive, `len` its
length in bytes, `size` the number of chat messages, `offset` the index from which
the next message is mined. -/
structure archive where
  str : List Nat
  offset : Nat
  size : Nat
  len : Nat
deriving DecidableEq, Repr

/-- The function `init_archive`: the message type 4, four zero size bytes. -/
def init_archive : archive :=
  { str := [4, 0, 0, 0, 0], offset := 5, len := 5, size := 0 }

/-- The loop of `parse_message`, with the running `count`.  The end of the list is
the terminating NUL. -/
def parse_loop : List Nat → Nat → Nat
  | [], count => count
  | c :: rest, count =>
    if c = 0 then count
    else if c = 10 then count
    else if c < 32 ∨ c > 126 then 0
    else parse_loop rest (count + 1)

/-- The function `parse_message`: the number of characters of a valid message, 0
for an empty message or one with an illegal character. -/
def parse_message (msg : List Nat) : Nat := parse_loop msg 0

/-- The 16 bytes of an `unsigned __int128`, as they lie in (little-endian) memory. -/
def int128_bytes (n : Nat) : List Nat := RFC1321.leBytes 16 n

/-- The mining loop of `add_message`: `buf` is `newmsg` up to the code, `n` the
value of `*mineptr`.  Returns the code and the digest found. -/
def mine (MD5 : List Nat → List Nat) (buf : List Nat) :
    Nat → Nat → Option (List Nat × List Nat)
  | 0, _ => none
  | fuel + 1, n =>
    let code := int128_bytes n
    let md5 := MD5 (buf ++ code)
    if md5.getD 0 0 = 0 ∧ md5.getD 1 0 = 0 then some (code, md5)
    else mine MD5 buf fuel ((n + 1) % 2 ^ 128)

/-- The four size bytes of an archive or peer list, high-order byte first. -/
def size_bytes (n : Nat) : List Nat :=
  [n / 16777216 % 256, n / 65536 % 256, n / 256 % 256, n % 256]

/-- The 32-bit value of four bytes, high-order byte first. -/
def read_size (b0 b1 b2 b3 : Nat) : Nat :=
  (b0 * 16777216 + b1 * 65536 + b2 * 256 + b3) % UINT32

/-- The last lines of `add_message`: the size bytes `str[1..4]` are read,
incremented and written back. -/
def bump_size_bytes (str : List Nat) : List Nat :=
  let old_size :=
    (read_size (str.getD 1 0) (str.getD 2 0) (str.getD 3 0) (str.getD 4 0) + 1) % UINT32
  (((str.set 1 (old_size / 16777216 % 256)).set 2 (old_size / 65536 % 256)).set 3
    (old_size / 256 % 256)).set 4 (old_size % 256)

/-- The function `add_message`.  The result is `none` when the mining loop did not
return within `fuel` digests, else the return value (1 added, 0 rejected) and the
archive afterwards. -/
def add_message (MD5 : List Nat → List Nat) (fuel : Nat) (arch : archive) (msg : List Nat) :
    Option (Nat × archive) :=
  let len := parse_message msg % 65536
  if len = 0 then some (0, arch)
  else
    let tail := (arch.str.drop arch.offset).take ((arch.len + UINT32 - arch.offset) % UINT32)
    let newmsg := tail ++ (len % 256 :: msg.take len)
    match mine MD5 newmsg fuel 0 with
    | none => none
    | some (code, md5) =>
      let entry := ((newmsg ++ code ++ md5).drop (arch.len - arch.offset)).take (len + 33)
      let str1 := arch.str.take arch.len ++ entry
      let size1 := (arch.size + 1) % UINT32
      let offset1 :=
        if size1 ≥ 20 then (arch.offset + (str1.getD arch.offset 0 + 33)) % UINT32
        else arch.offset
      some (1, { str := bump_size_bytes str1, offset := offset1, size := size1,
                 len := (arch.len + (len + 33)) % UINT32 })

/-- The loop of `is_valid`: `k` iterations are left, `i` is the loop counter,
`begin_` and `end_` are the two pointers (as indices into `str`).  Returns the
return value and the offset field afterwards. -/
def is_valid_loop (MD5 : List Nat → List Nat) (str : List Nat) :
    Nat → Nat → Nat → Nat → Nat → Nat → Nat × Nat
  | 0, _, _, _, _, offset => (1, offset)
  | k + 1, i, begin_, end_, md5len, offset =>
    let len := str.getD end_ 0
    let end1 := end_ + (len + 17)
    let md1 := (md5len + (len + 17)) % UINT32
    if str.getD end1 0 ≠ 0 ∨ str.getD (end1 + 1) 0 ≠ 0 then (0, offset)
    else
      let offset1 := if i > 19 then (offset + (str.getD begin_ 0 + 33)) % UINT32 else offset
      let md2 := if i > 20 then (md1 + UINT32 - (str.getD begin_ 0 + 33)) % UINT32 else md1
      let begin2 := if i > 20 then begin_ + (str.getD begin_ 0 + 33) else begin_
      if MD5 ((str.drop begin2).take md2) ≠ (str.drop end1).take 16 then (0, offset1)
      else is_valid_loop MD5 str k (i + 1) begin2 (end1 + 16) ((md2 + 16) % UINT32) offset1

/-- The function `is_valid`: the return value (1 valid, 0 invalid) and the archive
afterwards, whose offset field the loop has advanced. -/
def is_valid (MD5 : List Nat → List Nat) (arch : archive) : Nat × archive :=
  let r := is_valid_loop MD5 arch.str arch.size 1 5 5 0 arch.offset
  (r.1, { arch with offset := r.2 })

/-! ## main.c: the ArchiveResponse handler -/

/-- The receive loop of `process_archive`: `n` entries are still to be read from
`wire`, `aux` is what has been stored so far and `len` the running length.  The
result is `none` when the wire ends inside an entry. -/
def recv_entries : Nat → List Nat → List Nat → Nat → Option (List Nat × Nat)
  | 0, _, aux, len => some (aux, len)
  | _ + 1, [], _, _ => none
  | n + 1, msglen :: wire, aux, len =>
    if wire.length < msglen + 32 then none
    else
      recv_entries n (wire.drop (msglen + 32))
        (aux ++ (msglen :: wire.take msglen) ++ (wire.drop msglen).take 32)
        ((len + (msglen + 33)) % UINT32)

/-- The first part of `process_archive`: the bytes that follow the type byte on
the socket are stored into a fresh archive struct (offset 5, as `init_archive`
leaves it).  The result is `none` when the wire ends before the archive does. -/
def recv_archive (wire : List Nat) : Option archive :=
  match wire with
  | b0 :: b1 :: b2 :: b3 :: rest =>
    match recv_entries (read_size b0 b1 b2 b3) rest [4, b0, b1, b2, b3] 5 with
    | none => none
    | some (aux, len) =>
      some { str := aux.take len, offset := init_archive.offset,
             size := read_size b0 b1 b2 b3, len := len }
  | _ => none

/-- The function `process_archive`, as a function of the active archive and of the
bytes on the socket: the active archive afterwards. -/
def process_archive (MD5 : List Nat → List Nat) (active_arch : archive) (wire : List Nat) :
    Option archive :=
  match recv_archive wire with
  | none => none
  | some new_archive =>
    if new_archive.size > active_arch.size ∧ (is_valid MD5 new_archive).1 ≠ 0 then
      some (is_valid MD5 new_archive).2
    else some active_arch

/-! ## Reachable archives -/

/-- The archive after `add_message` has been called on each message in turn, every
call returning 1; `none` when a call returns 0 or a search does not return. -/
def add_all (MD5 : List Nat → List Nat) (fuel : Nat) : archive → List (List Nat) → Option archive
  | a, [] => some a
  | a, m :: ms =>
    match add_message MD5 fuel a m with
    | some (1, a1) => add_all MD5 fuel a1 ms
    | _ => none

/-- A chat message as the data model has it: 1 to 255 bytes, each in 32..126. -/
def valid_msg (m : List Nat) : Prop :=
  1 ≤ m.length ∧ m.length ≤ 255 ∧ ∀ c ∈ m, 32 ≤ c ∧ c ≤ 126

instance (m : List Nat) : Decidable (valid_msg m) := by
  unfold valid_msg; infer_instance

/-- The payload of a NUL-terminated string in the words of the message codec: the
bytes before the first newline or the terminating NUL. -/
def payload_of (msg : List Nat) : List Nat := msg.takeWhile (fun c => c ≠ 0 ∧ c ≠ 10)

/-- The number of bytes of an archive that holds the given messages: the 5 header
bytes, and for each message its length byte, its payload, 16 bytes of code and 16
bytes of digest. -/
def wire_len (msgs : List (List Nat)) : Nat :=
  5 + (msgs.map (fun m => parse_message m % 65536 + 33)).sum


/-! ## Archives as lists of entries -/

/-- One entry of an archive: the payload, the 16 bytes of code and the 16 bytes of
digest. -/
structure Entry where
  payload : List Nat
  code : List Nat
  md5 : List Nat

/-- The part of an entry that is hashed with it: length byte, payload and code. -/
def Entry.head (e : Entry) : List Nat := e.payload.length :: (e.payload ++ e.code)

/-- The bytes of an entry. -/
def Entry.bytes (e : Entry) : List Nat :=
  e.payload.length :: (e.payload ++ (e.code ++ e.md5))

/-- The bytes of a sequence of entries. -/
def flat : List Entry → List Nat
  | [] => []
  | e :: es => e.bytes ++ flat es

/-- The shape of an entry: a payload of at most 255 bytes, 16 bytes of code, 16
bytes of digest. -/
def Entry.wf (e : Entry) : Prop :=
  e.payload.length ≤ 255 ∧ e.code.length = 16 ∧ e.md5.length = 16

/-- The digest of `e`, stored after the entries `pre`, is the digest of the last
19 entries of `pre` followed by the head of `e`, and starts with two zero bytes. -/
def Entry.sealed (MD5 : List Nat → List Nat) (pre : List Entry) (e : Entry) : Prop :=
  e.md5 = MD5 (flat (pre.drop (pre.length - 19)) ++ e.head) ∧
    e.md5.getD 0 0 = 0 ∧ e.md5.getD 1 0 = 0

/-- Every entry of the sequence has the shape of an entry and is sealed. -/
def Chain (MD5 : List Nat → List Nat) (es : List Entry) : Prop :=
  ∀ pre e post, es = pre ++ e :: post → e.wf ∧ e.sealed MD5 pre

/-- The archive `a` holds the entries `es`, whose payloads are `msgs`. -/
structure Stores (MD5 : List Nat → List Nat) (msgs : List (List Nat)) (a : archive)
    (es : List Entry) : Prop where
  str_eq : a.str = 4 :: (size_bytes es.length ++ flat es)
  size_eq : a.size = es.length
  len_eq : a.len = a.str.length
  len_wire : a.len = wire_len msgs
  offset_eq : a.offset = 5 + (flat (es.take (es.length - 19))).length
  payloads : es.map Entry.payload = msgs
  chain : Chain MD5 es

/-- The archive `a` has a well-formed frame for the messages `msgs`: `len` is the
length of `str` and the number of bytes of the messages, `size` is their number, and
`str` starts with the type byte 4 and the size bytes of `size`. -/
def Framed (msgs : List (List Nat)) (a : archive) : Prop :=
  a.len = a.str.length ∧ a.len = wire_len msgs ∧ a.size = msgs.length ∧
    ∃ body, a.str = 4 :: (size_bytes a.size ++ body)

/-! ## Entries located in the bytes of an archive -/

/-- The index in `str` of entry `j + 1`, found by walking the length bytes from
byte 5 as `is_valid` and `print_archive` do. -/
def entry_index (str : List Nat) : Nat → Nat
  | 0 => 5
  | j + 1 => entry_index str j + (str.getD (entry_index str j) 0 + 33)

/-- The length byte, payload and code of entry `k`, entries numbered from 1. -/
def entry_head (str : List Nat) (k : Nat) : List Nat :=
  (str.drop (entry_index str (k - 1))).take (str.getD (entry_index str (k - 1)) 0 + 17)

/-- The 16 digest bytes of entry `k`, entries numbered from 1. -/
def entry_digest (str : List Nat) (k : Nat) : List Nat :=
  (str.drop (entry_index str (k - 1) + (str.getD (entry_index str (k - 1)) 0 + 17))).take 16

/-- The window `W_k` in the words of the data model: only the length byte, payload
and code of each of the last min(20, k) entries up to and including entry `k`. -/
def spec_window (str : List Nat) (k : Nat) : List Nat :=
  ((List.range (min 20 k)).map (fun t => entry_head str (k - min 20 k + 1 + t))).flatten

/-- The stored bytes from the first byte of entry `k - min(20, k) + 1` up to the
digest of entry `k`: the min(19, k - 1) entries before entry `k` whole, digests
included, followed by the length byte, payload and code of entry `k`. -/
def stored_window (str : List Nat) (k : Nat) : List Nat :=
  (str.drop (entry_index str (k - min 20 k))).take
    (entry_index str (k - 1) + (str.getD (entry_index str (k - 1)) 0 + 17)
      - entry_index str (k - min 20 k))

/-! ## Runs of the program that are evaluated -/

/-- The bytes of "hello 105915". -/
def msg_hello : List Nat := [104, 101, 108, 108, 111, 32, 49, 48, 53, 57, 49, 53]

/-- The bytes of "world 14444". -/
def msg_world : List Nat := [119, 111, 114, 108, 100, 32, 49, 52, 52, 52, 52]

/-- The archive after "hello 105915" has been added to the empty archive. -/
def arch_hello : archive :=
  { str := [4, 0, 0, 0, 1, 12, 104, 101, 108, 108, 111, 32, 49, 48, 53, 57, 49, 53,
      2, 0, 0, 0, 0, 0, 0, 0, 0, 0, 0, 0, 0, 0, 0, 0,
      0, 0, 67, 195, 39, 133, 239, 177, 247, 129, 243, 43, 12, 65, 196, 39],
    offset := 5, size := 1, len := 50 }

/-- The archive after "world 14444" has been added to `arch_hello`. -/
def arch_hello_world : archive :=
  { str := [4, 0, 0, 0, 2, 12, 104, 101, 108, 108, 111, 32, 49, 48, 53, 57, 49, 53,
      2, 0, 0, 0, 0, 0, 0, 0, 0, 0, 0, 0, 0, 0, 0, 0,
      0, 0, 67, 195, 39, 133, 239, 177, 247, 129, 243, 43, 12, 65, 196, 39,
      11, 119, 111, 114, 108, 100, 32, 49, 52, 52, 52, 52,
      1, 0, 0, 0, 0, 0, 0, 0, 0, 0, 0, 0, 0, 0, 0, 0,
      0, 0, 115, 190, 219, 176, 219, 217, 251, 115, 249, 133, 86, 9, 71, 224],
    offset := 5, size := 2, len := 94 }

/-- A string of 256 printable bytes: 250 times "a", then "022691". -/
def msg_256 : List Nat := List.replicate 250 97 ++ [48, 50, 50, 54, 57, 49]

/-- A string with a tab: "a", tab, "b". -/
def msg_tab : List Nat := [97, 9, 98]

/-- Twenty-one messages, the first of 5 bytes and the others of 4. -/
def msgs_21 : List (List Nat) :=
  [[97, 101, 108, 117, 104], [98, 100, 98, 99], [103, 118, 99, 114], [97, 102, 118, 104],
   [100, 114, 118, 120], [106, 108, 114, 109], [101, 107, 97, 105], [99, 116, 118, 107],
   [97, 107, 118, 101], [107, 106, 112, 103], [99, 109, 104, 112], [100, 116, 101, 102],
   [99, 121, 115, 115], [98, 116, 114, 117], [102, 114, 98, 116], [97, 122, 119, 116],
   [108, 105, 109, 98], [101, 108, 108, 112], [97, 119, 101, 113], [100, 112, 115, 118],
   [97, 102, 122, 116]]

/-- The bytes of "fudn". -/
def msg_22 : List Nat := [102, 117, 100, 110]

/-- The archive that `add_message` builds from `init_archive` and `msgs_21`. -/
def arch_21 : archive :=
  { str := [
      4, 0, 0, 0, 21, 5, 97, 101, 108, 117, 104, 0, 0, 0, 0, 0, 0, 0, 0, 0, 0, 0, 0, 0, 0, 0,
      0, 0, 0, 22, 230, 140, 249, 245, 4, 142, 255, 219, 137, 53, 225, 36, 167, 4, 98, 100, 98,
      99, 0, 0, 0, 0, 0, 0, 0, 0, 0, 0, 0, 0, 0, 0, 0, 0, 0, 0, 118, 148, 214, 29, 10, 5, 48,
      158, 193, 154, 46, 212, 112, 142, 4, 103, 118, 99, 114, 0, 0, 0, 0, 0, 0, 0, 0, 0, 0, 0,
      0, 0, 0, 0, 0, 0, 0, 187, 46, 107, 239, 228, 205, 8, 244, 116, 5, 48, 46, 123, 220, 4,
      97, 102, 118, 104, 0, 0, 0, 0, 0, 0, 0, 0, 0, 0, 0, 0, 0, 0, 0, 0, 0, 0, 235, 59, 10,
      217, 58, 25, 115, 197, 114, 139, 175, 181, 208, 95, 4, 100, 114, 118, 120, 0, 0, 0, 0, 0,
      0, 0, 0, 0, 0, 0, 0, 0, 0, 0, 0, 0, 0, 14, 198, 255, 198, 43, 14, 216, 167, 161, 109,
      181, 173, 66, 157, 4, 106, 108, 114, 109, 0, 0, 0, 0, 0, 0, 0, 0, 0, 0, 0, 0, 0, 0, 0, 0,
      0, 0, 177, 32, 241, 152, 65, 11, 58, 72, 216, 142, 159, 248, 221, 242, 4, 101, 107, 97,
      105, 0, 0, 0, 0, 0, 0, 0, 0, 0, 0, 0, 0, 0, 0, 0, 0, 0, 0, 47, 15, 134, 75, 65, 212, 206,
      182, 247, 198, 10, 114, 9, 199, 4, 99, 116, 118, 107, 0, 0, 0, 0, 0, 0, 0, 0, 0, 0, 0, 0,
      0, 0, 0, 0, 0, 0, 213, 157, 247, 24, 52, 154, 233, 233, 77, 105, 226, 206, 33, 32, 4, 97,
      107, 118, 101, 0, 0, 0, 0, 0, 0, 0, 0, 0, 0, 0, 0, 0, 0, 0, 0, 0, 0, 106, 36, 146, 108,
      226, 146, 117, 218, 239, 144, 86, 206, 237, 107, 4, 107, 106, 112, 103, 0, 0, 0, 0, 0, 0,
      0, 0, 0, 0, 0, 0, 0, 0, 0, 0, 0, 0, 28, 43, 51, 45, 41, 18, 132, 218, 139, 107, 39, 79,
      40, 109, 4, 99, 109, 104, 112, 0, 0, 0, 0, 0, 0, 0, 0, 0, 0, 0, 0, 0, 0, 0, 0, 0, 0, 59,
      106, 254, 248, 249, 64, 194, 97, 254, 125, 175, 95, 46, 230, 4, 100, 116, 101, 102, 0, 0,
      0, 0, 0, 0, 0, 0, 0, 0, 0, 0, 0, 0, 0, 0, 0, 0, 76, 2, 182, 237, 23, 124, 116, 66, 115,
      176, 162, 45, 198, 179, 4, 99, 121, 115, 115, 0, 0, 0, 0, 0, 0, 0, 0, 0, 0, 0, 0, 0, 0,
      0, 0, 0, 0, 28, 45, 104, 46, 200, 237, 66, 55, 162, 56, 230, 249, 17, 51, 4, 98, 116,
      114, 117, 0, 0, 0, 0, 0, 0, 0, 0, 0, 0, 0, 0, 0, 0, 0, 0, 0, 0, 193, 70, 178, 101, 67,
      67, 82, 114, 40, 152, 96, 150, 229, 117, 4, 102, 114, 98, 116, 0, 0, 0, 0, 0, 0, 0, 0, 0,
      0, 0, 0, 0, 0, 0, 0, 0, 0, 223, 1, 154, 101, 61, 89, 218, 102, 186, 214, 71, 137, 42,
      231, 4, 97, 122, 119, 116, 0, 0, 0, 0, 0, 0, 0, 0, 0, 0, 0, 0, 0, 0, 0, 0, 0, 0, 226,
      198, 106, 170, 201, 11, 244, 193, 61, 153, 134, 123, 176, 243, 4, 108, 105, 109, 98, 0,
      0, 0, 0, 0, 0, 0, 0, 0, 0, 0, 0, 0, 0, 0, 0, 0, 0, 0, 12, 64, 43, 172, 245, 98, 132, 58,
      169, 13, 212, 9, 227, 4, 101, 108, 108, 112, 0, 0, 0, 0, 0, 0, 0, 0, 0, 0, 0, 0, 0, 0, 0,
      0, 0, 0, 206, 178, 81, 168, 233, 163, 168, 228, 63, 80, 120, 226, 138, 20, 4, 97, 119,
      101, 113, 0, 0, 0, 0, 0, 0, 0, 0, 0, 0, 0, 0, 0, 0, 0, 0, 0, 0, 138, 3, 69, 200, 148,
      189, 206, 64, 1, 119, 33, 142, 217, 98, 4, 100, 112, 115, 118, 0, 0, 0, 0, 0, 0, 0, 0, 0,
      0, 0, 0, 0, 0, 0, 0, 0, 0, 214, 173, 209, 79, 161, 249, 99, 159, 50, 157, 126, 0, 96, 72,
      4, 97, 102, 122, 116, 0, 0, 0, 0, 0, 0, 0, 0, 0, 0, 0, 0, 0, 0, 0, 0, 0, 0, 35, 37, 205,
      123, 31, 45, 113, 162, 173, 57, 107, 8, 12, 0],
    offset := 80, size := 21, len := 783 }

/-- The archive after a peer that received `arch_21` has added "fudn" to it. -/
def arch_22 : archive :=
  { str := [
      4, 0, 0, 0, 22, 5, 97, 101, 108, 117, 104, 0, 0, 0, 0, 0, 0, 0, 0, 0, 0, 0, 0, 0, 0, 0,
      0, 0, 0, 22, 230, 140, 249, 245, 4, 142, 255, 219, 137, 53, 225, 36, 167, 4, 98, 100, 98,
      99, 0, 0, 0, 0, 0, 0, 0, 0, 0, 0, 0, 0, 0, 0, 0, 0, 0, 0, 118, 148, 214, 29, 10, 5, 48,
      158, 193, 154, 46, 212, 112, 142, 4, 103, 118, 99, 114, 0, 0, 0, 0, 0, 0, 0, 0, 0, 0, 0,
      0, 0, 0, 0, 0, 0, 0, 187, 46, 107, 239, 228, 205, 8, 244, 116, 5, 48, 46, 123, 220, 4,
      97, 102, 118, 104, 0, 0, 0, 0, 0, 0, 0, 0, 0, 0, 0, 0, 0, 0, 0, 0, 0, 0, 235, 59, 10,
      217, 58, 25, 115, 197, 114, 139, 175, 181, 208, 95, 4, 100, 114, 118, 120, 0, 0, 0, 0, 0,
      0, 0, 0, 0, 0, 0, 0, 0, 0, 0, 0, 0, 0, 14, 198, 255, 198, 43, 14, 216, 167, 161, 109,
      181, 173, 66, 157, 4, 106, 108, 114, 109, 0, 0, 0, 0, 0, 0, 0, 0, 0, 0, 0, 0, 0, 0, 0, 0,
      0, 0, 177, 32, 241, 152, 65, 11, 58, 72, 216, 142, 159, 248, 221, 242, 4, 101, 107, 97,
      105, 0, 0, 0, 0, 0, 0, 0, 0, 0, 0, 0, 0, 0, 0, 0, 0, 0, 0, 47, 15, 134, 75, 65, 212, 206,
      182, 247, 198, 10, 114, 9, 199, 4, 99, 116, 118, 107, 0, 0, 0, 0, 0, 0, 0, 0, 0, 0, 0, 0,
      0, 0, 0, 0, 0, 0, 213, 157, 247, 24, 52, 154, 233, 233, 77, 105, 226, 206, 33, 32, 4, 97,
      107, 118, 101, 0, 0, 0, 0, 0, 0, 0, 0, 0, 0, 0, 0, 0, 0, 0, 0, 0, 0, 106, 36, 146, 108,
      226, 146, 117, 218, 239, 144, 86, 206, 237, 107, 4, 107, 106, 112, 103, 0, 0, 0, 0, 0, 0,
      0, 0, 0, 0, 0, 0, 0, 0, 0, 0, 0, 0, 28, 43, 51, 45, 41, 18, 132, 218, 139, 107, 39, 79,
      40, 109, 4, 99, 109, 104, 112, 0, 0, 0, 0, 0, 0, 0, 0, 0, 0, 0, 0, 0, 0, 0, 0, 0, 0, 59,
      106, 254, 248, 249, 64, 194, 97, 254, 125, 175, 95, 46, 230, 4, 100, 116, 101, 102, 0, 0,
      0, 0, 0, 0, 0, 0, 0, 0, 0, 0, 0, 0, 0, 0, 0, 0, 76, 2, 182, 237, 23, 124, 116, 66, 115,
      176, 162, 45, 198, 179, 4, 99, 121, 115, 115, 0, 0, 0, 0, 0, 0, 0, 0, 0, 0, 0, 0, 0, 0,
      0, 0, 0, 0, 28, 45, 104, 46, 200, 237, 66, 55, 162, 56, 230, 249, 17, 51, 4, 98, 116,
      114, 117, 0, 0, 0, 0, 0, 0, 0, 0, 0, 0, 0, 0, 0, 0, 0, 0, 0, 0, 193, 70, 178, 101, 67,
      67, 82, 114, 40, 152, 96, 150, 229, 117, 4, 102, 114, 98, 116, 0, 0, 0, 0, 0, 0, 0, 0, 0,
      0, 0, 0, 0, 0, 0, 0, 0, 0, 223, 1, 154, 101, 61, 89, 218, 102, 186, 214, 71, 137, 42,
      231, 4, 97, 122, 119, 116, 0, 0, 0, 0, 0, 0, 0, 0, 0, 0, 0, 0, 0, 0, 0, 0, 0, 0, 226,
      198, 106, 170, 201, 11, 244, 193, 61, 153, 134, 123, 176, 243, 4, 108, 105, 109, 98, 0,
      0, 0, 0, 0, 0, 0, 0, 0, 0, 0, 0, 0, 0, 0, 0, 0, 0, 0, 12, 64, 43, 172, 245, 98, 132, 58,
      169, 13, 212, 9, 227, 4, 101, 108, 108, 112, 0, 0, 0, 0, 0, 0, 0, 0, 0, 0, 0, 0, 0, 0, 0,
      0, 0, 0, 206, 178, 81, 168, 233, 163, 168, 228, 63, 80, 120, 226, 138, 20, 4, 97, 119,
      101, 113, 0, 0, 0, 0, 0, 0, 0, 0, 0, 0, 0, 0, 0, 0, 0, 0, 0, 0, 138, 3, 69, 200, 148,
      189, 206, 64, 1, 119, 33, 142, 217, 98, 4, 100, 112, 115, 118, 0, 0, 0, 0, 0, 0, 0, 0, 0,
      0, 0, 0, 0, 0, 0, 0, 0, 0, 214, 173, 209, 79, 161, 249, 99, 159, 50, 157, 126, 0, 96, 72,
      4, 97, 102, 122, 116, 0, 0, 0, 0, 0, 0, 0, 0, 0, 0, 0, 0, 0, 0, 0, 0, 0, 0, 35, 37, 205,
      123, 31, 45, 113, 162, 173, 57, 107, 8, 12, 0, 4, 102, 117, 100, 110, 0, 0, 0, 0, 0, 0,
      0, 0, 0, 0, 0, 0, 0, 0, 0, 0, 0, 0, 192, 30, 132, 236, 1, 126, 213, 102, 50, 139, 84, 24,
      239, 2],
    offset := 217, size := 22, len := 820 }

/-- The archive of the first `size` entries of `a`: a header for `size`, then the
bytes 5 to `len` of `a.str`. -/
def archive_cut (a : archive) (size len offset : Nat) : archive :=
  { str := 4 :: (size_bytes size ++ (a.str.take len).drop 5), offset := offset, size := size,
    len := len }

/-- The scenario of a relayed archive: a peer builds an archive from `msgs`; a second
peer, whose archive is empty, handles the ArchiveResponse that carries it and then
adds `m`; a third peer receives the result and validates it.  The result is the
return value of the second peer's `add_message`, the size of the second peer's active
archive before it, and the return value of the third peer's `is_valid`. -/
def relay_then_add (MD5 : List Nat → List Nat) (fuel : Nat) (msgs : List (List Nat))
    (m : List Nat) : Option (Nat × Nat × Nat) :=
  (add_all MD5 fuel init_archive msgs).bind fun a =>
  (process_archive MD5 init_archive (a.str.drop 1)).bind fun b =>
  (add_message MD5 fuel b m).bind fun r =>
  (recv_archive (r.2.str.drop 1)).map fun d => (r.1, b.size, (is_valid MD5 d).1)

/-! ## Mining and forged archives -/

/-- The archive of "hello 105915" and "world 14444" as a peer might forge it: the
first byte of the digest of entry 2 (index 78) is 1 instead of 0. -/
def arch_forged : archive :=
  { arch_hello_world with str := arch_hello_world.str.set 78 1 }

/-- The value of a byte string read as a little-endian integer, as the cast of
`code` to `unsigned __int128 *` in `add_message` reads it. -/
def le_value : List Nat → Nat
  | [] => 0
  | b :: rest => b + 256 * le_value rest

/-- The buffer `newmsg` of `add_message` before the code: the tail of the archive
from `offset`, the length byte and the payload. -/
def newmsg (arch : archive) (msg : List Nat) : List Nat :=
  (arch.str.drop arch.offset).take ((arch.len + UINT32 - arch.offset) % UINT32)
    ++ (parse_message msg % 65536 % 256 :: msg.take (parse_message msg % 65536))

/-- The argument of the `malloc` of `process_archive`, `5 + (usize * 289)`, as the
32-bit unsigned arithmetic of C evaluates it. -/
def malloc_size (usize : Nat) : Nat := (5 + usize * 289 % UINT32) % UINT32

/-! ## peerlist.c -/

/-- A node of the peer list: the address and the socket of a peer. -/
structure node where
  ip : Nat
  sock : Nat
deriving DecidableEq, Repr

/-- The struct `peer_list`.  `head_ip` is the `ip` field of the node `head`, which
holds no peer; `nodes` are the nodes linked after it, in order, the last of them being
`last`; `str` is `none` for the NULL pointer. -/
structure peer_list where
  head_ip : Nat
  nodes : List node
  size : Nat
  str : Option (List Nat)
deriving DecidableEq, Repr

/-- The function `init_list`. -/
def init_list : peer_list := { head_ip := 0, nodes := [], size := 0, str := none }

/-- The four bytes that `list_to_str` writes for one address, low-order byte first. -/
def ip_bytes (ip : Nat) : List Nat :=
  [ip % 256, ip / 256 % 256, ip / 65536 % 256, ip / 16777216 % 256]

/-- The loop of `list_to_str`: `n` iterations are left and `aux` is the node under the
cursor.  The C code dereferences `aux` without a test; on a list that has ended the
model writes nothing more. -/
def list_to_str_loop : Nat → List node → List Nat
  | 0, _ => []
  | _ + 1, [] => []
  | n + 1, aux :: rest => ip_bytes aux.ip ++ list_to_str_loop n rest

/-- The function `list_to_str`: the loop counter runs from 5 in steps of 4 while it is
below `5 + size * 4`, evaluated in 32 bits. -/
def list_to_str (list : peer_list) : peer_list :=
  { list with
    str := some (2 :: (size_bytes list.size ++
      list_to_str_loop (((5 + list.size * 4 % UINT32) % UINT32 - 5) / 4) list.nodes)) }

/-- The function `add_peer`. -/
def add_peer (list : peer_list) (ip sock : Nat) : peer_list :=
  list_to_str { list with nodes := list.nodes ++ [{ ip := ip, sock := sock }],
                          size := (list.size + 1) % UINT32 }

/-- The search and unlinking of `remove_peer`: the nodes without the first one whose
address is `ip`, or `none` when no node has it. -/
def unlink (ip : Nat) : List node → Option (List node)
  | [] => none
  | x :: rest => if x.ip = ip then some rest else (unlink ip rest).map (fun r => x :: r)

/-- The function `remove_peer`. -/
def remove_peer (list : peer_list) (ip : Nat) : peer_list :=
  match unlink ip list.nodes with
  | none => list
  | some nodes1 =>
    list_to_str { list with nodes := nodes1, size := (list.size + UINT32 - 1) % UINT32 }

/-- The loop of `is_connected` over the `ip` fields of the nodes from the cursor on. -/
def is_connected_loop (ip : Nat) : List Nat → Nat
  | [] => 0
  | x :: rest => if x = ip then 1 else is_connected_loop ip rest

/-- The function `is_connected`: the cursor starts at `list->head`. -/
def is_connected (list : peer_list) (ip : Nat) : Nat :=
  is_connected_loop ip (list.head_ip :: list.nodes.map node.ip)

/-- The address that `process_peerlist` computes from the four bytes it receives. -/
def uip (buf0 buf1 buf2 buf3 : Nat) : Nat :=
  (buf3 * 16777216 + buf2 * 65536 + buf1 * 256 + buf0) % UINT32

/-- A call of `add_peer` or of `remove_peer`. -/
inductive peer_call where
  | add (ip sock : Nat)
  | remove (ip : Nat)
deriving DecidableEq, Repr

/-- The peer list after the calls, in order. -/
def run_calls : peer_list → List peer_call → peer_list
  | list, [] => list
  | list, peer_call.add ip sock :: rest => run_calls (add_peer list ip sock) rest
  | list, peer_call.remove ip :: rest => run_calls (remove_peer list ip) rest

/-- The addresses of a sequence of calls are 32-bit values. -/
def calls_ok : List peer_call → Prop
  | [] => True
  | peer_call.add ip _ :: rest => ip < UINT32 ∧ calls_ok rest
  | peer_call.remove ip :: rest => ip < UINT32 ∧ calls_ok rest

/-- The layout of the cached frame `str` of a peer list: 5 + 4 * size bytes, the type
byte 2, the four size bytes, then for the node `j` (from 0) the four bytes of its
address at 5 + 4 * j, from which `process_peerlist` computes the address back. -/
def frame_layout (list : peer_list) : Prop :=
  ∃ f, list.str = some f ∧ list.size = list.nodes.length ∧ f.length = 5 + 4 * list.size ∧
    f.getD 0 0 = 2 ∧ (f.drop 1).take 4 = size_bytes list.size ∧
    read_size (f.getD 1 0) (f.getD 2 0) (f.getD 3 0) (f.getD 4 0) = list.size ∧
    ∀ (j : Nat) (hj : j < list.nodes.length),
      (f.drop (5 + 4 * j)).take 4 = ip_bytes (list.nodes.get ⟨j, hj⟩).ip ∧
      uip (f.getD (5 + 4 * j) 0) (f.getD (5 + 4 * j + 1) 0) (f.getD (5 + 4 * j + 2) 0)
        (f.getD (5 + 4 * j + 3) 0) = (list.nodes.get ⟨j, hj⟩).ip

/-! ## main.c: handlers of ArchiveResponse that run concurrently -/

/-- A thread inside the last part of `process_archive`.  `pc` is 0 before the test
under the read lock, 1 after the test has passed and the read lock is released
(the thread waits for the write lock), 2 when the handler is done. -/
structure handler where
  new_archive : archive
  pc : Nat
deriving DecidableEq, Repr

/-- The active archive and the handlers. -/
structure chat_state where
  active_arch : archive
  handlers : List handler
deriving DecidableEq, Repr

/-- What a thread does while it holds the lock: handler `i` runs its next locked
section, or the main thread adds a message under the write lock. -/
inductive action where
  | handle (i : Nat)
  | add (msg : List Nat)
deriving DecidableEq, Repr

/-- The next locked section of a handler.  At `pc` 0, under the read lock: the test
`new_archive->size > active_arch->size && is_valid(new_archive)`; the lock is then
released.  At `pc` 1, under the write lock: `active_arch = new_archive`. -/
def handler_step (MD5 : List Nat → List Nat) (active_arch : archive) (h : handler) :
    archive × handler :=
  if h.pc = 0 then
    if h.new_archive.size > active_arch.size ∧ (is_valid MD5 h.new_archive).1 ≠ 0 then
      (active_arch, { new_archive := (is_valid MD5 h.new_archive).2, pc := 1 })
    else (active_arch, { h with pc := 2 })
  else if h.pc = 1 then (h.new_archive, { h with pc := 2 })
  else (active_arch, h)

/-- One locked section runs to its end. -/
def step (MD5 : List Nat → List Nat) (fuel : Nat) (s : chat_state) : action → chat_state
  | action.handle i =>
    match s.handlers.get? i with
    | none => s
    | some h =>
      { active_arch := (handler_step MD5 s.active_arch h).1,
        handlers := s.handlers.set i (handler_step MD5 s.active_arch h).2 }
  | action.add msg =>
    match add_message MD5 fuel s.active_arch msg with
    | some (_, a1) => { s with active_arch := a1 }
    | none => s

/-- An interleaving: the locked sections run one after the other in the order given. -/
def run (MD5 : List Nat → List Nat) (fuel : Nat) : chat_state → List action → chat_state
  | s, [] => s
  | s, x :: rest => run MD5 fuel (step MD5 fuel s x) rest

/-- A peer with the empty archive and two handlers that have received their
archives: handler 0 the archive of "hello 105915" and "world 14444", handler 1 the
archive of "hello 105915". -/
def race_start : chat_state :=
  { active_arch := init_archive,
    handlers := [{ new_archive := arch_hello_world, pc := 0 },
                 { new_archive := arch_hello, pc := 0 }] }

/-! ## parse_message -/

theorem parse_loop_eq (msg : List Nat) (count : Nat) :
    parse_loop msg count =
      if ∀ c ∈ payload_of msg, 32 ≤ c ∧ c ≤ 126 then count + (payload_of msg).length else 0 := by
  induction msg generalizing count with
  | nil => simp [parse_loop, payload_of]
  | cons c rest ih =>
    unfold parse_loop
    by_cases h0 : c = 0
    · simp [h0, payload_of]
    · by_cases h10 : c = 10
      · simp [h10, payload_of]
      · by_cases hbad : c < 32 ∨ c > 126
        · have : ¬ (32 ≤ c ∧ c ≤ 126) := by omega
          simp [h0, h10, hbad, payload_of, List.takeWhile_cons, this]
        · have hok : 32 ≤ c ∧ c ≤ 126 := by omega
          rw [if_neg h0, if_neg h10, if_neg hbad, ih]
          have hp : payload_of (c :: rest) = c :: payload_of rest := by
            simp [payload_of, List.takeWhile_cons, h0, h10]
          rw [hp]
          simp only [List.mem_cons, forall_eq_or_imp, hok, true_and, List.length_cons, and_self]
          split <;> omega

theorem parse_message_le_length (msg : List Nat) : parse_message msg ≤ msg.length := by
  unfold parse_message
  rw [parse_loop_eq]
  split
  · have := (List.takeWhile_sublist (l := msg) (fun c => decide (c ≠ 0 ∧ c ≠ 10))).length_le
    simp only [payload_of]
    omega
  · omega

theorem payload_of_valid (m : List Nat) (h : valid_msg m) : payload_of m = m := by
  unfold payload_of
  rw [List.takeWhile_eq_self_iff]
  intro c hc
  have := h.2.2 c hc
  simp
  omega

theorem parse_message_valid (m : List Nat) (h : valid_msg m) : parse_message m = m.length := by
  unfold parse_message
  rw [parse_loop_eq, payload_of_valid m h, if_pos h.2.2]
  omega

theorem parse_message_eq (msg : List Nat) :
    parse_message msg =
      (if ∀ c ∈ payload_of msg, 32 ≤ c ∧ c ≤ 126 then (payload_of msg).length else 0) := by
  unfold parse_message
  rw [parse_loop_eq]
  simp

/-! ## The mining loop and add_message -/

theorem length_leBytes (n x : Nat) : (RFC1321.leBytes n x).length = n := by
  induction n generalizing x with
  | zero => rfl
  | succ n ih => simp [RFC1321.leBytes, ih]

theorem length_int128_bytes (n : Nat) : (int128_bytes n).length = 16 :=
  length_leBytes 16 n

theorem length_md5 (msg : List Nat) : (RFC1321.md5 msg).length = 16 := by
  unfold RFC1321.md5 RFC1321.digest
  simp only [List.length_append, length_leBytes]

theorem mine_some (MD5 : List Nat → List Nat) (buf : List Nat) (fuel n : Nat)
    (code md5 : List Nat) (h : mine MD5 buf fuel n = some (code, md5)) :
    code.length = 16 ∧ md5 = MD5 (buf ++ code) ∧ md5.getD 0 0 = 0 ∧ md5.getD 1 0 = 0 := by
  induction fuel generalizing n with
  | zero => simp [mine] at h
  | succ fuel ih =>
    simp only [mine] at h
    split at h
    · rename_i hz
      simp only [Option.some.injEq, Prod.mk.injEq] at h
      obtain ⟨h1, h2⟩ := h
      subst h1 h2
      exact ⟨length_int128_bytes n, rfl, hz.1, hz.2⟩
    · exact ih _ h

/-- What a call of `add_message` that returns 1 does to an archive whose `len` is
the length of `str`. -/
theorem add_message_one (MD5 : List Nat → List Nat) (h16 : ∀ b, (MD5 b).length = 16)
    (fuel : Nat) (a a1 : archive) (msg : List Nat)
    (hlen : a.len = a.str.length) (hlt : a.len < UINT32)
    (h : add_message MD5 fuel a msg = some (1, a1)) :
    parse_message msg % 65536 ≠ 0 ∧ ∃ code md5,
      mine MD5 (a.str.drop a.offset ++
        (parse_message msg % 65536 % 256 :: msg.take (parse_message msg % 65536))) fuel 0
        = some (code, md5) ∧
      a1.str = bump_size_bytes (a.str ++
        (parse_message msg % 65536 % 256 ::
          (msg.take (parse_message msg % 65536) ++ (code ++ md5)))) ∧
      a1.size = (a.size + 1) % UINT32 ∧
      a1.len = (a.len + (parse_message msg % 65536 + 33)) % UINT32 ∧
      a1.offset = (if (a.size + 1) % UINT32 ≥ 20 then
        (a.offset + ((a.str ++ (parse_message msg % 65536 % 256 ::
          (msg.take (parse_message msg % 65536) ++ (code ++ md5)))).getD a.offset 0 + 33))
            % UINT32
        else a.offset) := by
  unfold add_message at h
  simp only at h
  have htail : (a.str.drop a.offset).take ((a.len + UINT32 - a.offset) % UINT32)
      = a.str.drop a.offset := by
    apply List.take_of_length_le
    rw [List.length_drop]
    by_cases ho : a.offset ≤ a.len
    · have : (a.len + UINT32 - a.offset) % UINT32 = a.len - a.offset := by
        have : a.len + UINT32 - a.offset = (a.len - a.offset) + UINT32 := by omega
        rw [this, Nat.add_mod_right]
        exact Nat.mod_eq_of_lt (by omega)
      omega
    · omega
  rw [htail] at h
  split at h
  · simp at h
  · rename_i hn
    refine ⟨hn, ?_⟩
    split at h
    · simp at h
    · rename_i code md5 hm
      have hm2 := mine_some MD5 _ fuel 0 code md5 hm
      have hmd : md5.length = 16 := by rw [hm2.2.1]; exact h16 _
      have hpl : (msg.take (parse_message msg % 65536)).length = parse_message msg % 65536 := by
        rw [List.length_take]
        have := parse_message_le_length msg
        have := Nat.mod_le (parse_message msg) 65536
        omega
      have hentry : ((a.str.drop a.offset ++ (parse_message msg % 65536 % 256 ::
            msg.take (parse_message msg % 65536)) ++ code ++ md5).drop (a.len - a.offset)).take
            (parse_message msg % 65536 + 33)
          = parse_message msg % 65536 % 256 ::
              (msg.take (parse_message msg % 65536) ++ (code ++ md5)) := by
        have hd : (a.str.drop a.offset).length = a.len - a.offset := by
          rw [List.length_drop, hlen]
        rw [List.append_assoc, List.append_assoc, ← hd, List.drop_left]
        simp only [List.cons_append, List.append_assoc]
        apply List.take_of_length_le
        simp only [List.length_append, List.length_cons, hpl, hm2.1, hmd]
        omega
      rw [hentry] at h
      have hts : a.str.take a.len = a.str := by
        rw [hlen]; exact List.take_length _
      rw [hts] at h
      simp only [Option.some.injEq, Prod.mk.injEq, true_and] at h
      subst h
      exact ⟨code, md5, hm, rfl, rfl, rfl, rfl⟩

/-! ## The size bytes -/

theorem read_size_size_bytes (s : Nat) :
    read_size (s / 16777216 % 256) (s / 65536 % 256) (s / 256 % 256) (s % 256) = s % UINT32 := by
  unfold read_size UINT32
  omega

theorem bump_size_bytes_cons (t b0 b1 b2 b3 : Nat) (rest : List Nat) :
    bump_size_bytes (t :: b0 :: b1 :: b2 :: b3 :: rest)
      = t :: (size_bytes ((read_size b0 b1 b2 b3 + 1) % UINT32) ++ rest) := by
  simp [bump_size_bytes, size_bytes, List.set]

theorem bump_size_bytes_header (s : Nat) (rest : List Nat) :
    bump_size_bytes (4 :: (size_bytes s ++ rest))
      = 4 :: (size_bytes ((s + 1) % UINT32) ++ rest) := by
  have h : size_bytes s ++ rest
      = s / 16777216 % 256 :: s / 65536 % 256 :: s / 256 % 256 :: s % 256 :: rest := rfl
  rw [h, bump_size_bytes_cons, read_size_size_bytes]
  congr 3
  exact Nat.mod_add_mod s UINT32 1 |>.symm ▸ rfl

theorem length_bump_size_bytes (str : List Nat) :
    (bump_size_bytes str).length = str.length := by
  simp [bump_size_bytes]

/-! ## Entries -/

theorem getD_at (X Y : List Nat) (y n : Nat) (h : n = X.length) :
    (X ++ y :: Y).getD n 0 = y := by
  subst h
  rw [List.getD_append_right _ _ _ _ (Nat.le_refl _)]
  simp

theorem getD_after (X Y : List Nat) (n j : Nat) (h : n = X.length + j) :
    (X ++ Y).getD n 0 = Y.getD j 0 := by
  subst h
  rw [List.getD_append_right _ _ _ _ (Nat.le_add_right _ _)]
  simp

theorem slice_at (X Y Z : List Nat) (n m : Nat) (hn : n = X.length) (hm : m = Y.length) :
    ((X ++ (Y ++ Z)).drop n).take m = Y := by
  subst hn hm
  rw [List.drop_left, List.take_left]

theorem flat_append (es fs : List Entry) : flat (es ++ fs) = flat es ++ flat fs := by
  induction es with
  | nil => rfl
  | cons e es ih => simp [flat, ih]

theorem flat_singleton (e : Entry) : flat [e] = e.bytes := by
  simp [flat]

theorem entry_length_head (e : Entry) (h : e.wf) : e.head.length = e.payload.length + 17 := by
  simp [Entry.head, h.2.1]

theorem entry_length_bytes (e : Entry) (h : e.wf) : e.bytes.length = e.payload.length + 33 := by
  simp [Entry.bytes, h.2.1, h.2.2]

theorem length_le_length_flat (es : List Entry) : es.length ≤ (flat es).length := by
  induction es with
  | nil => simp [flat]
  | cons e es ih =>
    simp only [flat, List.length_cons, List.length_append, Entry.bytes]
    omega

theorem chain_nil (MD5 : List Nat → List Nat) : Chain MD5 [] := by
  intro pre e post h
  simp at h

theorem chain_snoc (MD5 : List Nat → List Nat) (es : List Entry) (e : Entry)
    (hc : Chain MD5 es) (hw : e.wf) (hs : e.sealed MD5 es) : Chain MD5 (es ++ [e]) := by
  intro pre x post h
  rcases List.eq_nil_or_concat post with hp | ⟨post1, y, hp⟩
  · subst hp
    have h2 : es ++ [e] = pre ++ [x] := h
    obtain ⟨h3, h4⟩ := List.append_inj' h2 rfl
    simp only [List.cons.injEq, and_true] at h4
    subst h3 h4
    exact ⟨hw, hs⟩
  · subst hp
    have h2 : es ++ [e] = (pre ++ x :: post1) ++ [y] := by
      rw [h]; simp
    obtain ⟨h3, _⟩ := List.append_inj' h2 rfl
    exact hc pre x post1 h3

theorem chain_wf_of_mem (MD5 : List Nat → List Nat) (es : List Entry) (hc : Chain MD5 es)
    (e : Entry) (he : e ∈ es) : e.wf := by
  obtain ⟨pre, post, h⟩ := List.append_of_mem he
  exact (hc pre e post h).1

/-! ## add_message keeps the archive a sequence of sealed entries -/

theorem wire_len_snoc (msgs : List (List Nat)) (m : List Nat) :
    wire_len (msgs ++ [m]) = wire_len msgs + (parse_message m % 65536 + 33) := by
  simp [wire_len]
  omega

theorem stores_init (MD5 : List Nat → List Nat) : Stores MD5 [] init_archive [] where
  str_eq := rfl
  size_eq := rfl
  len_eq := rfl
  len_wire := rfl
  offset_eq := rfl
  payloads := rfl
  chain := chain_nil MD5

theorem flat_take_succ (es : List Entry) (k : Nat) (hk : k < es.length) :
    ∃ x, x ∈ es ∧ flat (es.take (k + 1)) = flat (es.take k) ++ x.bytes ∧
      flat es = flat (es.take k) ++ (x.bytes ++ flat (es.drop (k + 1))) := by
  refine ⟨es[k], List.getElem_mem hk, ?_, ?_⟩
  · rw [List.take_succ, flat_append]
    simp [List.getElem?_eq_getElem hk, flat]
  · conv_lhs => rw [← List.take_append_drop k es, List.drop_eq_getElem_cons hk]
    rw [flat_append]
    simp [flat]

theorem flat_take_drop (es : List Entry) (k : Nat) :
    flat es = flat (es.take k) ++ flat (es.drop k) := by
  rw [← flat_append, List.take_append_drop]

theorem drop_header_flat (n k : Nat) (es : List Entry) :
    (4 :: (size_bytes n ++ flat es)).drop (5 + (flat (es.take k)).length)
      = flat (es.drop k) := by
  have h : 4 :: (size_bytes n ++ flat es)
      = (4 :: (size_bytes n ++ flat (es.take k))) ++ flat (es.drop k) := by
    conv_lhs => rw [flat_take_drop es k]
    simp
  rw [h]
  apply List.drop_left'
  simp [size_bytes]
  omega

theorem getD_header_flat (n k : Nat) (es : List Entry) (x : Entry) (rest : List Nat)
    (h : flat es = flat (es.take k) ++ (x.bytes ++ rest)) :
    (4 :: (size_bytes n ++ flat es)).getD (5 + (flat (es.take k)).length) 0
      = x.payload.length := by
  have h2 : 4 :: (size_bytes n ++ flat es)
      = (4 :: (size_bytes n ++ flat (es.take k))) ++
          (x.payload.length :: ((x.payload ++ (x.code ++ x.md5)) ++ rest)) := by
    rw [h]
    simp [Entry.bytes]
  rw [h2]
  apply getD_at
  simp [size_bytes]
  omega

theorem length_flat_take_le (es : List Entry) (k : Nat) :
    (flat (es.take k)).length ≤ (flat es).length := by
  conv_rhs => rw [flat_take_drop es k]
  simp

theorem stores_add (MD5 : List Nat → List Nat) (h16 : ∀ b, (MD5 b).length = 16)
    (fuel : Nat) (msgs : List (List Nat)) (a a1 : archive) (es : List Entry) (m : List Nat)
    (hs : Stores MD5 msgs a es) (hv : valid_msg m) (hfit : wire_len (msgs ++ [m]) < UINT32)
    (h : add_message MD5 fuel a m = some (1, a1)) :
    ∃ e, Stores MD5 (msgs ++ [m]) a1 (es ++ [e]) := by
  have hpm : parse_message m % 65536 = m.length := by
    rw [parse_message_valid m hv]
    exact Nat.mod_eq_of_lt (by have := hv.2.1; omega)
  have hpb : m.length % 256 = m.length := Nat.mod_eq_of_lt (by have := hv.2.1; omega)
  rw [wire_len_snoc, hpm, ← hs.len_wire] at hfit
  have hlt : a.len < UINT32 := by omega
  obtain ⟨_, code, md5, hm, hstr, hsize, hlen, hoff⟩ :=
    add_message_one MD5 h16 fuel a a1 m hs.len_eq hlt h
  rw [hpm, hpb, List.take_length] at hm hstr hoff
  rw [hpm] at hlen
  obtain ⟨hc16, hmd, hz0, hz1⟩ := mine_some MD5 _ fuel 0 code md5 hm
  have hm16 : md5.length = 16 := by rw [hmd]; exact h16 _
  have hw : Entry.wf ⟨m, code, md5⟩ := ⟨hv.2.1, hc16, hm16⟩
  have hlenstr : a.str.length = 5 + (flat es).length := by
    rw [hs.str_eq]; simp [size_bytes]; omega
  have hles := length_le_length_flat es
  have hlen5 := hs.len_eq
  have hsz : (es.length + 1) % UINT32 = es.length + 1 :=
    Nat.mod_eq_of_lt (by omega)
  have hstr1 : a.str ++ (m.length :: (m ++ (code ++ md5)))
      = 4 :: (size_bytes es.length ++ flat (es ++ [⟨m, code, md5⟩])) := by
    rw [hs.str_eq, flat_append, flat_singleton]
    simp [Entry.bytes]
  have hdrop : a.str.drop a.offset = flat (es.drop (es.length - 19)) := by
    rw [hs.str_eq, hs.offset_eq, drop_header_flat]
  have hseal : Entry.sealed MD5 es ⟨m, code, md5⟩ := by
    refine ⟨?_, hz0, hz1⟩
    rw [hmd, ← hdrop]
    simp [Entry.head]
  have hchain := chain_snoc MD5 es _ hs.chain hw hseal
  refine ⟨⟨m, code, md5⟩, ?_⟩
  constructor
  · rw [hstr, hstr1, bump_size_bytes_header, hsz]
    simp
  · rw [hsize, hs.size_eq, hsz]
    simp
  · rw [hlen, hstr, length_bump_size_bytes, List.length_append, ← hs.len_eq]
    simp only [List.length_cons, List.length_append, hc16, hm16]
    rw [Nat.mod_eq_of_lt (by omega)]
  · rw [hlen, wire_len_snoc, hpm, ← hs.len_wire]
    exact Nat.mod_eq_of_lt (by omega)
  · rw [hoff, hs.size_eq, hsz, hstr1]
    simp only [List.length_append, List.length_singleton]
    by_cases h20 : es.length + 1 ≥ 20
    · rw [if_pos h20]
      have hk : es.length - 19 < (es ++ [(⟨m, code, md5⟩ : Entry)]).length := by
        simp; omega
      obtain ⟨x, hx, ht, hf⟩ := flat_take_succ (es ++ [⟨m, code, md5⟩]) (es.length - 19) hk
      have htk : (es ++ [(⟨m, code, md5⟩ : Entry)]).take (es.length - 19)
          = es.take (es.length - 19) := by
        rw [List.take_append_of_le_length (by omega)]
      have hxw : x.wf := chain_wf_of_mem MD5 _ hchain x hx
      have hidx : es.length + 1 - 19 = es.length - 19 + 1 := by omega
      rw [hidx, ht, hs.offset_eq, ← htk, getD_header_flat _ _ _ x _ hf, List.length_append,
        entry_length_bytes x hxw]
      have hbound := length_flat_take_le (es ++ [(⟨m, code, md5⟩ : Entry)]) (es.length - 19 + 1)
      rw [ht, List.length_append, entry_length_bytes x hxw, flat_append, flat_singleton,
        List.length_append, entry_length_bytes _ hw] at hbound
      simp only at hbound
      rw [Nat.mod_eq_of_lt (by omega)]
      omega
    · rw [if_neg h20, hs.offset_eq]
      have h1 : es.length - 19 = 0 := by omega
      have h2 : es.length + 1 - 19 = 0 := by omega
      rw [h1, h2]
      simp
  · rw [List.map_append, hs.payloads]
    simp
  · exact hchain

theorem wire_len_append_le (msgs ms : List (List Nat)) :
    wire_len msgs ≤ wire_len (msgs ++ ms) := by
  simp [wire_len]

theorem add_all_cons (MD5 : List Nat → List Nat) (fuel : Nat) (a0 a : archive)
    (m : List Nat) (ms : List (List Nat)) (h : add_all MD5 fuel a0 (m :: ms) = some a) :
    ∃ a1, add_message MD5 fuel a0 m = some (1, a1) ∧ add_all MD5 fuel a1 ms = some a := by
  unfold add_all at h
  split at h
  · rename_i a1 h1
    exact ⟨a1, h1, h⟩
  · simp at h

theorem stores_add_all_from (MD5 : List Nat → List Nat) (h16 : ∀ b, (MD5 b).length = 16)
    (fuel : Nat) (ms : List (List Nat)) :
    ∀ (msgs0 : List (List Nat)) (a0 a : archive) (es0 : List Entry),
      Stores MD5 msgs0 a0 es0 → (∀ m ∈ ms, valid_msg m) →
      wire_len (msgs0 ++ ms) < UINT32 → add_all MD5 fuel a0 ms = some a →
      ∃ es, Stores MD5 (msgs0 ++ ms) a es := by
  induction ms with
  | nil =>
    intro msgs0 a0 a es0 hs _ _ h
    simp only [add_all, Option.some.injEq] at h
    subst h
    exact ⟨es0, by simpa using hs⟩
  | cons m ms ih =>
    intro msgs0 a0 a es0 hs hv hfit h
    obtain ⟨a1, h1, h2⟩ := add_all_cons MD5 fuel a0 a m ms h
    have hfit1 : wire_len (msgs0 ++ [m]) < UINT32 := by
      have := wire_len_append_le (msgs0 ++ [m]) ms
      simp only [List.append_assoc, List.singleton_append] at this
      omega
    obtain ⟨e, hs1⟩ := stores_add MD5 h16 fuel msgs0 a0 a1 es0 m hs
      (hv m (List.mem_cons_self _ _)) hfit1 h1
    have := ih (msgs0 ++ [m]) a1 a (es0 ++ [e]) hs1
      (fun x hx => hv x (List.mem_cons_of_mem _ hx)) (by simpa using hfit) h2
    simpa using this

/-- An archive built from `init_archive` by calls of `add_message` on valid messages
is a sequence of sealed entries. -/
theorem stores_of_add_all (MD5 : List Nat → List Nat) (h16 : ∀ b, (MD5 b).length = 16)
    (fuel : Nat) (msgs : List (List Nat)) (a : archive)
    (hv : ∀ m ∈ msgs, valid_msg m) (hfit : wire_len msgs < UINT32)
    (h : add_all MD5 fuel init_archive msgs = some a) :
    ∃ es, Stores MD5 msgs a es := by
  have := stores_add_all_from MD5 h16 fuel msgs [] init_archive a [] (stores_init MD5) hv
    (by simpa using hfit) h
  simpa using this

/-! ## The header of an archive built by any calls that returned 1 -/

theorem length_le_wire_len (msgs : List (List Nat)) : msgs.length ≤ wire_len msgs := by
  induction msgs with
  | nil => simp [wire_len]
  | cons m ms ih =>
    simp only [wire_len, List.map_cons, List.sum_cons, List.length_cons] at ih ⊢
    omega

theorem framed_add (MD5 : List Nat → List Nat) (h16 : ∀ b, (MD5 b).length = 16)
    (fuel : Nat) (msgs : List (List Nat)) (a a1 : archive) (m : List Nat)
    (hf : Framed msgs a) (hfit : wire_len (msgs ++ [m]) < UINT32)
    (h : add_message MD5 fuel a m = some (1, a1)) : Framed (msgs ++ [m]) a1 := by
  obtain ⟨hlen, hwire, hsize, body, hstr⟩ := hf
  have hfit2 := hfit
  rw [wire_len_snoc, ← hwire] at hfit2
  obtain ⟨_, code, md5, hm, hstr1, hsize1, hlen1, _⟩ :=
    add_message_one MD5 h16 fuel a a1 m hlen (by omega) h
  obtain ⟨hc16, hmd, _, _⟩ := mine_some MD5 _ fuel 0 code md5 hm
  have hm16 : md5.length = 16 := by rw [hmd]; exact h16 _
  have hml : msgs.length ≤ wire_len msgs := length_le_wire_len msgs
  have hs1 : (a.size + 1) % UINT32 = a.size + 1 := Nat.mod_eq_of_lt (by omega)
  have hpl : (m.take (parse_message m % 65536)).length = parse_message m % 65536 := by
    rw [List.length_take]
    have := parse_message_le_length m
    have := Nat.mod_le (parse_message m) 65536
    omega
  have hl1 : a1.len = a.len + (parse_message m % 65536 + 33) := by
    rw [hlen1]; exact Nat.mod_eq_of_lt (by omega)
  refine ⟨?_, ?_, ?_, ?_⟩
  · rw [hl1, hstr1, length_bump_size_bytes, List.length_append, ← hlen]
    simp only [List.length_cons, List.length_append, hc16, hm16, hpl]
  · rw [hl1, wire_len_snoc, hwire]
  · rw [hsize1, hs1, hsize]; simp
  · refine ⟨body ++ (parse_message m % 65536 % 256 ::
      (m.take (parse_message m % 65536) ++ (code ++ md5))), ?_⟩
    rw [hstr1, hstr, List.cons_append, List.append_assoc, bump_size_bytes_header, hsize1]

theorem framed_add_all_from (MD5 : List Nat → List Nat) (h16 : ∀ b, (MD5 b).length = 16)
    (fuel : Nat) (ms : List (List Nat)) :
    ∀ (msgs0 : List (List Nat)) (a0 a : archive),
      Framed msgs0 a0 → wire_len (msgs0 ++ ms) < UINT32 →
      add_all MD5 fuel a0 ms = some a → Framed (msgs0 ++ ms) a := by
  induction ms with
  | nil =>
    intro msgs0 a0 a hf _ h
    simp only [add_all, Option.some.injEq] at h
    subst h
    simpa using hf
  | cons m ms ih =>
    intro msgs0 a0 a hf hfit h
    obtain ⟨a1, h1, h2⟩ := add_all_cons MD5 fuel a0 a m ms h
    have hfit1 : wire_len (msgs0 ++ [m]) < UINT32 := by
      have := wire_len_append_le (msgs0 ++ [m]) ms
      simp only [List.append_assoc, List.singleton_append] at this
      omega
    have := ih (msgs0 ++ [m]) a1 a (framed_add MD5 h16 fuel msgs0 a0 a1 m hf hfit1 h1)
      (by simpa using hfit) h2
    simpa using this

theorem framed_of_add_all (MD5 : List Nat → List Nat) (h16 : ∀ b, (MD5 b).length = 16)
    (fuel : Nat) (msgs : List (List Nat)) (a : archive) (hfit : wire_len msgs < UINT32)
    (h : add_all MD5 fuel init_archive msgs = some a) : Framed msgs a := by
  have h0 : Framed [] init_archive := ⟨rfl, rfl, rfl, [], rfl⟩
  have := framed_add_all_from MD5 h16 fuel msgs [] init_archive a h0 (by simpa using hfit) h
  simpa using this

/-! ## is_valid accepts a sequence of sealed entries -/

/-- One iteration of the loop of `is_valid` that finds nothing wrong. -/
theorem is_valid_loop_step (MD5 : List Nat → List Nat) (str : List Nat)
    (k i begin_ end_ md5len offset L xL : Nat)
    (hL : str.getD end_ 0 = L) (hx : str.getD begin_ 0 = xL)
    (hz0 : str.getD (end_ + (L + 17)) 0 = 0) (hz1 : str.getD (end_ + (L + 17) + 1) 0 = 0)
    (hh : MD5 ((str.drop (if i > 20 then begin_ + (xL + 33) else begin_)).take
        (if i > 20 then ((md5len + (L + 17)) % UINT32 + UINT32 - (xL + 33)) % UINT32
          else (md5len + (L + 17)) % UINT32))
      = (str.drop (end_ + (L + 17))).take 16) :
    is_valid_loop MD5 str (k + 1) i begin_ end_ md5len offset
      = is_valid_loop MD5 str k (i + 1) (if i > 20 then begin_ + (xL + 33) else begin_)
          (end_ + (L + 17) + 16)
          (((if i > 20 then ((md5len + (L + 17)) % UINT32 + UINT32 - (xL + 33)) % UINT32
            else (md5len + (L + 17)) % UINT32) + 16) % UINT32)
          (if i > 19 then (offset + (xL + 33)) % UINT32 else offset) := by
  rw [is_valid_loop]
  simp only [hL, hx, hz0, hz1, hh, ne_eq, not_true_eq_false, or_self, if_false]

theorem is_valid_loop_chain (MD5 : List Nat → List Nat) (P : List Nat) (hP : P.length = 5)
    (rest : List Entry) :
    ∀ (A ws : List Entry) (offset : Nat),
      Chain MD5 (A ++ ws ++ rest) → ws.length ≤ 20 → (A = [] ∨ ws.length = 20) →
      (P ++ flat (A ++ ws ++ rest)).length < UINT32 →
      (is_valid_loop MD5 (P ++ flat (A ++ ws ++ rest)) rest.length (A.length + ws.length + 1)
        (5 + (flat A).length) (5 + (flat A).length + (flat ws).length) (flat ws).length
        offset).1 = 1 := by
  induction rest with
  | nil =>
    intro A ws offset _ _ _ _
    simp [is_valid_loop]
  | cons e rest ih =>
    intro A ws offset hc hws hA hlt
    obtain ⟨hw, hseal, hz0, hz1⟩ := hc (A ++ ws) e rest rfl
    have hhead := entry_length_head e hw
    -- the buffer, cut at the entry under the cursor
    have hS0 : P ++ flat (A ++ ws ++ e :: rest)
        = (P ++ flat A ++ flat ws) ++
            (e.payload.length :: (e.payload ++ (e.code ++ (e.md5 ++ flat rest)))) := by
      simp [flat_append, flat, Entry.bytes]
    have hS1 : P ++ flat (A ++ ws ++ e :: rest)
        = (P ++ flat A ++ flat ws ++ e.head) ++ (e.md5 ++ flat rest) := by
      simp [flat_append, flat, Entry.bytes, Entry.head]
    have hlen : (P ++ flat (A ++ ws ++ e :: rest)).length
        = 5 + (flat A).length + (flat ws).length + (e.payload.length + 17) + 16
            + (flat rest).length := by
      rw [hS1]
      simp only [List.length_append, hP, hhead, hw.2.2]
      omega
    have hL : (P ++ flat (A ++ ws ++ e :: rest)).getD
        (5 + (flat A).length + (flat ws).length) 0 = e.payload.length := by
      rw [hS0]
      apply getD_at
      simp only [List.length_append, hP]
    have hend1 : 5 + (flat A).length + (flat ws).length + (e.payload.length + 17)
        = (P ++ flat A ++ flat ws ++ e.head).length := by
      simp only [List.length_append, hP, hhead]
    have hg0 : (P ++ flat (A ++ ws ++ e :: rest)).getD
        (5 + (flat A).length + (flat ws).length + (e.payload.length + 17)) 0 = 0 := by
      rw [hS1, getD_after _ _ _ 0 (by rw [hend1]; rfl),
        List.getD_append _ _ _ _ (by rw [hw.2.2]; omega)]
      exact hz0
    have hg1 : (P ++ flat (A ++ ws ++ e :: rest)).getD
        (5 + (flat A).length + (flat ws).length + (e.payload.length + 17) + 1) 0 = 0 := by
      rw [hS1, getD_after _ _ _ 1 (by rw [hend1]),
        List.getD_append _ _ _ _ (by rw [hw.2.2]; omega)]
      exact hz1
    have hdig : ((P ++ flat (A ++ ws ++ e :: rest)).drop
        (5 + (flat A).length + (flat ws).length + (e.payload.length + 17))).take 16
        = e.md5 := by
      rw [hS1]
      exact slice_at _ _ _ _ _ hend1 hw.2.2.symm
    have hmd1 : ((flat ws).length + (e.payload.length + 17)) % UINT32
        = (flat ws).length + (e.payload.length + 17) :=
      Nat.mod_eq_of_lt (by omega)
    by_cases h20 : A.length + ws.length + 1 > 20
    · -- the window is full: its first entry leaves it
      have hws20 : ws.length = 20 := by
        rcases hA with hA | hA
        · subst hA; simp at h20; omega
        · exact hA
      obtain ⟨x, ws1, hxs⟩ : ∃ x ws1, ws = x :: ws1 := by
        cases ws with
        | nil => simp at hws20
        | cons x ws1 => exact ⟨x, ws1, rfl⟩
      subst hxs
      have hxw : x.wf := (hc A x (ws1 ++ e :: rest) (by simp)).1
      have hxb := entry_length_bytes x hxw
      have hws1 : ws1.length = 19 := by simpa using hws20
      have hX : (P ++ flat (A ++ x :: ws1 ++ e :: rest)).getD (5 + (flat A).length) 0
          = x.payload.length := by
        have : P ++ flat (A ++ x :: ws1 ++ e :: rest)
            = (P ++ flat A) ++ (x.payload.length ::
                (x.payload ++ (x.code ++ (x.md5 ++ flat (ws1 ++ e :: rest))))) := by
          simp [flat_append, flat, Entry.bytes]
        rw [this]
        apply getD_at
        simp [hP]
      have hfw : (flat (x :: ws1)).length = (x.payload.length + 33) + (flat ws1).length := by
        simp [flat, hxb]
      have hmd2 : ((flat (x :: ws1)).length + (e.payload.length + 17) + UINT32
          - (x.payload.length + 33)) % UINT32 = (flat ws1).length + (e.payload.length + 17) := by
        have : (flat (x :: ws1)).length + (e.payload.length + 17) + UINT32
            - (x.payload.length + 33) = (flat ws1).length + (e.payload.length + 17) + UINT32 := by
          omega
        rw [this, Nat.add_mod_right]
        exact Nat.mod_eq_of_lt (by omega)
      have hhash : MD5 (((P ++ flat (A ++ x :: ws1 ++ e :: rest)).drop
          (5 + (flat A).length + (x.payload.length + 33))).take
          ((flat ws1).length + (e.payload.length + 17))) = e.md5 := by
        have : P ++ flat (A ++ x :: ws1 ++ e :: rest)
            = (P ++ flat A ++ x.bytes) ++ ((flat ws1 ++ e.head) ++ (e.md5 ++ flat rest)) := by
          simp [flat_append, flat, Entry.bytes, Entry.head]
        rw [this, slice_at _ _ _ _ _ (by simp only [List.length_append, hP, hxb]) (by simp [hhead]), hseal]
        congr 2
        have : (A ++ x :: ws1).length - 19 = (A ++ [x]).length := by
          simp [hws1]
        rw [this]
        have : A ++ x :: ws1 = (A ++ [x]) ++ ws1 := by simp
        rw [this, List.drop_left]
      rw [List.length_cons e rest,
        is_valid_loop_step MD5 _ _ _ _ _ _ _ e.payload.length x.payload.length hL hX hg0 hg1
        (by rw [if_pos h20, if_pos h20, hmd1, hmd2, hhash, hdig])]
      rw [if_pos h20, if_pos h20, hmd1, hmd2]
      have hlist : A ++ x :: ws1 ++ e :: rest = (A ++ [x]) ++ (ws1 ++ [e]) ++ rest := by simp
      have hih := ih (A ++ [x]) (ws1 ++ [e])
        (if A.length + (x :: ws1).length + 1 > 19 then (offset + (x.payload.length + 33)) % UINT32
          else offset)
        (by rw [← hlist]; exact hc) (by simp [hws1]) (Or.inr (by simp [hws1]))
        (by rw [← hlist]; exact hlt)
      rw [← hlist] at hih
      have e1 : A.length + (x :: ws1).length + 1 + 1 = (A ++ [x]).length + (ws1 ++ [e]).length + 1 := by
        simp; omega
      have e2 : 5 + (flat A).length + (x.payload.length + 33) = 5 + (flat (A ++ [x])).length := by
        simp [flat_append, flat, hxb]; omega
      have e3 : 5 + (flat A).length + (flat (x :: ws1)).length + (e.payload.length + 17) + 16
          = 5 + (flat (A ++ [x])).length + (flat (ws1 ++ [e])).length := by
        simp [flat_append, flat, hxb, entry_length_bytes e hw]; omega
      have e4 : ((flat ws1).length + (e.payload.length + 17) + 16) % UINT32
          = (flat (ws1 ++ [e])).length := by
        rw [Nat.mod_eq_of_lt (by omega)]
        simp [flat_append, flat, entry_length_bytes e hw]; omega
      rw [e1, e2, e3, e4]
      exact hih
    · -- fewer than 20 entries so far: the window starts at the first entry
      have hA0 : A = [] := by
        rcases hA with hA | hA
        · exact hA
        · omega
      subst hA0
      have hws19 : ws.length ≤ 19 := by simp at h20; omega
      have hhash : MD5 (((P ++ flat ([] ++ ws ++ e :: rest)).drop (5 + (flat []).length)).take
          ((flat ws).length + (e.payload.length + 17))) = e.md5 := by
        have : P ++ flat ([] ++ ws ++ e :: rest)
            = P ++ ((flat ws ++ e.head) ++ (e.md5 ++ flat rest)) := by
          simp [flat_append, flat, Entry.bytes, Entry.head]
        rw [this, slice_at _ _ _ _ _ (by simp [hP, flat]) (by simp [hhead]), hseal]
        congr 2
        have : ([] ++ ws).length - 19 = 0 := by simp; omega
        rw [this]
        simp
      rw [List.length_cons e rest, is_valid_loop_step MD5 _ _ _ _ _ _ _ e.payload.length
        ((P ++ flat ([] ++ ws ++ e :: rest)).getD (5 + (flat []).length) 0) hL rfl hg0 hg1
        (by rw [if_neg h20, if_neg h20, hmd1, hhash, hdig])]
      rw [if_neg h20, if_neg h20, hmd1]
      have hlist : [] ++ ws ++ e :: rest = [] ++ (ws ++ [e]) ++ rest := by simp
      have hih := ih [] (ws ++ [e])
        (if ([] : List Entry).length + ws.length + 1 > 19 then
          (offset + ((P ++ flat ([] ++ ws ++ e :: rest)).getD (5 + (flat []).length) 0 + 33))
            % UINT32 else offset)
        (by rw [← hlist]; exact hc) (by simp; omega) (Or.inl rfl)
        (by rw [← hlist]; exact hlt)
      rw [← hlist] at hih
      have e1 : ([] : List Entry).length + ws.length + 1 + 1
          = ([] : List Entry).length + (ws ++ [e]).length + 1 := by
        simp
      have e3 : 5 + (flat []).length + (flat ws).length + (e.payload.length + 17) + 16
          = 5 + (flat []).length + (flat (ws ++ [e])).length := by
        simp [flat_append, flat, entry_length_bytes e hw]; omega
      have e4 : ((flat ws).length + (e.payload.length + 17) + 16) % UINT32
          = (flat (ws ++ [e])).length := by
        rw [Nat.mod_eq_of_lt (by omega)]
        simp [flat_append, flat, entry_length_bytes e hw]; omega
      rw [e1, e3, e4]
      exact hih

/-! ## The receive loop of process_archive on the bytes of an archive -/

theorem recv_entries_flat (more : List Nat) (es : List Entry) :
    ∀ (aux : List Nat) (len : Nat), (∀ e ∈ es, e.wf) → len + (flat es).length < UINT32 →
      recv_entries es.length (flat es ++ more) aux len
        = some (aux ++ flat es, len + (flat es).length) := by
  induction es with
  | nil =>
    intro aux len _ _
    simp [recv_entries, flat]
  | cons e es ih =>
    intro aux len hwf hlt
    have hw := hwf e (List.mem_cons_self _ _)
    have hb := entry_length_bytes e hw
    have hfl : (flat (e :: es)).length = (e.payload.length + 33) + (flat es).length := by
      simp [flat, hb]
    have hwire : flat (e :: es) ++ more
        = e.payload.length :: (e.payload ++ ((e.code ++ e.md5) ++ (flat es ++ more))) := by
      simp [flat, Entry.bytes]
    rw [hwire, List.length_cons, recv_entries]
    have hlen32 : (e.code ++ e.md5).length = 32 := by simp [hw.2.1, hw.2.2]
    have hnot : ¬ (e.payload ++ ((e.code ++ e.md5) ++ (flat es ++ more))).length
        < e.payload.length + 32 := by
      simp only [List.length_append, hlen32]
      omega
    rw [if_neg hnot]
    have h1 : (e.payload ++ ((e.code ++ e.md5) ++ (flat es ++ more))).take e.payload.length
        = e.payload := List.take_left _ _
    have h2 : ((e.payload ++ ((e.code ++ e.md5) ++ (flat es ++ more))).drop
        e.payload.length).take 32 = e.code ++ e.md5 := by
      rw [List.drop_left]
      exact List.take_left' hlen32
    have h3 : (e.payload ++ ((e.code ++ e.md5) ++ (flat es ++ more))).drop
        (e.payload.length + 32) = flat es ++ more := by
      rw [← List.append_assoc]
      apply List.drop_left'
      simp only [List.length_append, hlen32]
    rw [h1, h2, h3, Nat.mod_eq_of_lt (by omega),
      ih _ _ (fun x hx => hwf x (List.mem_cons_of_mem _ hx)) (by omega)]
    simp only [Option.some.injEq, Prod.mk.injEq]
    constructor
    · simp [flat, Entry.bytes]
    · omega

theorem recv_archive_stores (MD5 : List Nat → List Nat) (msgs : List (List Nat))
    (a : archive) (es : List Entry) (hs : Stores MD5 msgs a es) (hlt : a.len < UINT32)
    (more : List Nat) :
    recv_archive (a.str.drop 1 ++ more)
      = some { str := a.str, offset := 5, size := a.size, len := a.len } := by
  have hlenstr : a.str.length = 5 + (flat es).length := by
    rw [hs.str_eq]; simp [size_bytes]; omega
  have hles := length_le_length_flat es
  have hlen := hs.len_eq
  have hwire : a.str.drop 1 ++ more
      = es.length / 16777216 % 256 :: es.length / 65536 % 256 :: es.length / 256 % 256 ::
          es.length % 256 :: (flat es ++ more) := by
    rw [hs.str_eq]
    simp [size_bytes]
  rw [hwire, recv_archive]
  rw [read_size_size_bytes, Nat.mod_eq_of_lt (by omega),
    recv_entries_flat more es _ 5 (chain_wf_of_mem MD5 es hs.chain) (by omega)]
  simp only [Option.some.injEq]
  have hstr : [4, es.length / 16777216 % 256, es.length / 65536 % 256, es.length / 256 % 256,
      es.length % 256] ++ flat es = a.str := by
    rw [hs.str_eq]
    simp [size_bytes]
  rw [hstr, hs.size_eq, hlen, hlenstr, ← hlenstr, List.take_length]
  rfl

/-! ## The claims -/

/-- C1. The archive built from `init_archive` by calls of `add_message` on messages of
1 to 255 bytes in 32..126, each call returning 1 (so each mining search returned), is
accepted by `is_valid`; the empty sequence of messages is included.  The archive is
assumed to fit the 32-bit `len` field. -/
theorem is_valid_add_all (MD5 : List Nat → List Nat) (h16 : ∀ b, (MD5 b).length = 16)
    (fuel : Nat) (msgs : List (List Nat)) (a : archive)
    (hv : ∀ m ∈ msgs, valid_msg m) (hfit : wire_len msgs < UINT32)
    (h : add_all MD5 fuel init_archive msgs = some a) :
    (is_valid MD5 a).1 = 1 := by
  obtain ⟨es, hs⟩ := stores_of_add_all MD5 h16 fuel msgs a hv hfit h
  have hlt : a.str.length < UINT32 := by
    rw [← hs.len_eq, hs.len_wire]; exact hfit
  have hstr : a.str = (4 :: size_bytes es.length) ++ flat ([] ++ [] ++ es) := by
    rw [hs.str_eq]; simp
  have := is_valid_loop_chain MD5 (4 :: size_bytes es.length) (by simp [size_bytes]) es [] []
    a.offset (by simpa using hs.chain) (by simp) (Or.inl rfl) (by rw [← hstr]; exact hlt)
  rw [← hstr] at this
  simpa [is_valid, hs.size_eq, flat] using this

/-- C2. For an archive built from `init_archive` by calls of `add_message` that
returned 1, a further call that returns 1 on a message of payload length `n`
increases `size` by exactly 1 and `len` by exactly `n + 33`, and leaves in
`str[1..4]` the big-endian value of the new `size`.  The archive is assumed to fit
the 32-bit `len` field. -/
theorem add_message_size_len (MD5 : List Nat → List Nat) (h16 : ∀ b, (MD5 b).length = 16)
    (fuel fuel1 : Nat) (msgs : List (List Nat)) (a a1 : archive) (msg : List Nat)
    (hb : add_all MD5 fuel init_archive msgs = some a)
    (hfit : wire_len (msgs ++ [msg]) < UINT32)
    (h : add_message MD5 fuel1 a msg = some (1, a1)) :
    a1.size = a.size + 1 ∧ a1.len = a.len + (parse_message msg % 65536 + 33) ∧
      read_size (a1.str.getD 1 0) (a1.str.getD 2 0) (a1.str.getD 3 0) (a1.str.getD 4 0)
        = a1.size := by
  obtain ⟨hlen, hwire, hsize, body, hstr⟩ :=
    framed_of_add_all MD5 h16 fuel msgs a (by
      have := wire_len_append_le msgs [msg]
      omega) hb
  rw [wire_len_snoc, ← hwire] at hfit
  obtain ⟨_, code, md5, _, hstr1, hsize1, hlen1, _⟩ :=
    add_message_one MD5 h16 fuel1 a a1 msg hlen (by omega) h
  have hml : msgs.length ≤ wire_len msgs := length_le_wire_len msgs
  have hs1 : (a.size + 1) % UINT32 = a.size + 1 := Nat.mod_eq_of_lt (by omega)
  rw [hstr, List.cons_append, List.append_assoc, bump_size_bytes_header, hs1] at hstr1
  refine ⟨by rw [hsize1, hs1], by rw [hlen1]; exact Nat.mod_eq_of_lt (by omega), ?_⟩
  rw [hstr1, hsize1, hs1]
  simp only [size_bytes, List.cons_append, List.nil_append, List.getD_cons_succ,
    List.getD_cons_zero]
  rw [read_size_size_bytes]
  exact Nat.mod_eq_of_lt (by omega)

theorem drop_bump_size_bytes (str : List Nat) (n : Nat) (h : 5 ≤ n) :
    (bump_size_bytes str).drop n = str.drop n := by
  unfold bump_size_bytes
  simp only
  rw [List.drop_set_of_lt _ _ (by omega), List.drop_set_of_lt _ _ (by omega),
    List.drop_set_of_lt _ _ (by omega), List.drop_set_of_lt _ _ (by omega)]

theorem take_two_of_getD (d : List Nat) (hl : d.length = 16) (h0 : d.getD 0 0 = 0)
    (h1 : d.getD 1 0 = 0) : d.take 2 = [0, 0] := by
  match d, hl with
  | x :: y :: rest, _ =>
    simp only [List.getD_cons_zero, List.getD_cons_succ] at h0 h1
    subst h0 h1
    rfl

/-- C3. When `add_message` returns 1, the entry appended at index `len` of `str` has
`n + 33` bytes (`n` the payload length); its last 16 bytes, the digest, begin with
two zero bytes and are the MD5 of the bytes of the archive from `offset` up to `len`
before the call followed by the first `n + 17` bytes of the entry: its length byte,
its payload and its 16 bytes of code. -/
theorem add_message_digest (MD5 : List Nat → List Nat) (h16 : ∀ b, (MD5 b).length = 16)
    (fuel : Nat) (a a1 : archive) (msg : List Nat)
    (hlen : a.len = a.str.length) (h5 : 5 ≤ a.len) (hlt : a.len < UINT32)
    (h : add_message MD5 fuel a msg = some (1, a1)) :
    (a1.str.drop a.len).length = parse_message msg % 65536 + 33 ∧
    (a1.str.drop a.len).take (parse_message msg % 65536 + 1)
      = parse_message msg % 65536 % 256 :: msg.take (parse_message msg % 65536) ∧
    ((a1.str.drop a.len).drop (parse_message msg % 65536 + 17)).take 2 = [0, 0] ∧
    (a1.str.drop a.len).drop (parse_message msg % 65536 + 17)
      = MD5 ((a.str.drop a.offset).take (a.len - a.offset)
          ++ (a1.str.drop a.len).take (parse_message msg % 65536 + 17)) := by
  obtain ⟨_, code, md5, hm, hstr, _, _, _⟩ := add_message_one MD5 h16 fuel a a1 msg hlen hlt h
  obtain ⟨hc16, hmd, hz0, hz1⟩ := mine_some MD5 _ fuel 0 code md5 hm
  have hm16 : md5.length = 16 := by rw [hmd]; exact h16 _
  have hpl : (msg.take (parse_message msg % 65536)).length = parse_message msg % 65536 := by
    rw [List.length_take]
    have := parse_message_le_length msg
    have := Nat.mod_le (parse_message msg) 65536
    omega
  have hentry : a1.str.drop a.len = parse_message msg % 65536 % 256 ::
      (msg.take (parse_message msg % 65536) ++ (code ++ md5)) := by
    rw [hstr, drop_bump_size_bytes _ _ h5]
    exact List.drop_left' hlen.symm
  have htail : (a.str.drop a.offset).take (a.len - a.offset) = a.str.drop a.offset := by
    apply List.take_of_length_le
    rw [List.length_drop, hlen]
  have hsplit : parse_message msg % 65536 % 256 ::
      (msg.take (parse_message msg % 65536) ++ (code ++ md5))
      = (parse_message msg % 65536 % 256 :: (msg.take (parse_message msg % 65536) ++ code))
          ++ md5 := by simp
  have hl17 : (parse_message msg % 65536 % 256 ::
      (msg.take (parse_message msg % 65536) ++ code)).length
      = parse_message msg % 65536 + 17 := by
    simp only [List.length_cons, List.length_append, hpl, hc16]
  have hdrop : (a1.str.drop a.len).drop (parse_message msg % 65536 + 17) = md5 := by
    rw [hentry, hsplit]
    exact List.drop_left' hl17
  have htake : (a1.str.drop a.len).take (parse_message msg % 65536 + 17)
      = parse_message msg % 65536 % 256 :: (msg.take (parse_message msg % 65536) ++ code) := by
    rw [hentry, hsplit]
    exact List.take_left' hl17
  refine ⟨?_, ?_, ?_, ?_⟩
  · rw [hentry]
    simp only [List.length_cons, List.length_append, hpl, hc16, hm16]
  · rw [hentry]
    have : parse_message msg % 65536 % 256 ::
        (msg.take (parse_message msg % 65536) ++ (code ++ md5))
        = (parse_message msg % 65536 % 256 :: msg.take (parse_message msg % 65536))
            ++ (code ++ md5) := by simp
    rw [this]
    exact List.take_left' (by simp only [List.length_cons, hpl])
  · rw [hdrop]
    exact take_two_of_getD md5 hm16 hz0 hz1
  · rw [hdrop, htake, htail, hmd]
    simp

theorem is_valid_loop_ret (MD5 : List Nat → List Nat) (str : List Nat) (k : Nat) :
    ∀ (i begin_ end_ md5len offset : Nat),
      (is_valid_loop MD5 str k i begin_ end_ md5len offset).1 = 0 ∨
      (is_valid_loop MD5 str k i begin_ end_ md5len offset).1 = 1 := by
  induction k with
  | zero => intro i b e m o; right; rfl
  | succ k ih =>
    intro i b e m o
    rw [is_valid_loop]
    simp only
    split_ifs <;> first | (left; rfl) | exact ih _ _ _ _ _

theorem is_valid_ret (MD5 : List Nat → List Nat) (arch : archive) :
    (is_valid MD5 arch).1 = 0 ∨ (is_valid MD5 arch).1 = 1 :=
  is_valid_loop_ret MD5 arch.str arch.size 1 5 5 0 arch.offset

/-- C4. `process_archive`, as a function of the active archive and of the candidate
`cand` that its receive loop stores from the wire: when the size of the candidate is
strictly greater than the size of the active archive and `is_valid` returns 1 on it,
the active archive afterwards is the candidate (the struct as `is_valid` leaves it:
same `str`, `size` and `len`); in every other case the active archive is unchanged. -/
theorem process_archive_swap (MD5 : List Nat → List Nat) (active_arch cand : archive)
    (wire : List Nat) (hr : recv_archive wire = some cand) :
    (cand.size > active_arch.size ∧ (is_valid MD5 cand).1 = 1 →
      process_archive MD5 active_arch wire = some (is_valid MD5 cand).2 ∧
      (is_valid MD5 cand).2.str = cand.str ∧ (is_valid MD5 cand).2.size = cand.size ∧
      (is_valid MD5 cand).2.len = cand.len) ∧
    (¬ (cand.size > active_arch.size ∧ (is_valid MD5 cand).1 = 1) →
      process_archive MD5 active_arch wire = some active_arch) := by
  unfold process_archive
  rw [hr]
  simp only
  constructor
  · intro hc
    have : cand.size > active_arch.size ∧ (is_valid MD5 cand).1 ≠ 0 := ⟨hc.1, by rw [hc.2]; decide⟩
    rw [if_pos this]
    exact ⟨rfl, rfl, rfl, rfl⟩
  · intro hc
    have : ¬ (cand.size > active_arch.size ∧ (is_valid MD5 cand).1 ≠ 0) := by
      intro ⟨h1, h2⟩
      rcases is_valid_ret MD5 cand with h0 | h0
      · exact h2 h0
      · exact hc ⟨h1, h0⟩
    rw [if_neg this]

/-- C6. For a NUL-terminated string, with `payload_of msg` the bytes before the first
newline or the terminating NUL: `parse_message` returns the length of the payload
when every byte of it lies in 32..126 (0 for the empty payload), and 0 when some byte
of it lies outside; "hi" followed by a newline gives 2. -/
theorem parse_message_payload (msg : List Nat) :
    parse_message msg =
      (if ∀ c ∈ payload_of msg, 32 ≤ c ∧ c ≤ 126 then (payload_of msg).length else 0) ∧
    parse_message [104, 105, 10] = 2 := by
  exact ⟨parse_message_eq msg, by decide⟩

/-- C7. On a message whose payload is empty or has a byte outside 32..126,
`add_message` returns 0 and the archive (`str`, `len`, `size`, `offset`) is
unchanged. -/
theorem add_message_invalid (MD5 : List Nat → List Nat) (fuel : Nat) (a : archive)
    (msg : List Nat)
    (h : payload_of msg = [] ∨ ∃ c ∈ payload_of msg, c < 32 ∨ 126 < c) :
    add_message MD5 fuel a msg = some (0, a) := by
  have hp : parse_message msg = 0 := by
    rw [parse_message_eq msg]
    rcases h with h | ⟨c, hc, hbad⟩
    · rw [h]; simp
    · rw [if_neg]
      intro hall
      have := hall c hc
      omega
  unfold add_message
  simp [hp]

theorem take_length_payload_of (msg : List Nat) :
    msg.take (payload_of msg).length = payload_of msg := by
  unfold payload_of
  have h := List.take_left (msg.takeWhile (fun c => decide (c ≠ 0 ∧ c ≠ 10)))
    (msg.dropWhile (fun c => decide (c ≠ 0 ∧ c ≠ 10)))
  rwa [List.takeWhile_append_dropWhile] at h

/-- C8 (amended). When `add_message` returns 1 on an input whose payload (the bytes
before the first newline or NUL) has at most 255 bytes, the appended entry is the
length byte, the payload, 16 bytes of code and 16 bytes of digest, where the length
byte equals the number of payload bytes and lies between 1 and 255. -/
theorem add_message_length_byte (MD5 : List Nat → List Nat) (h16 : ∀ b, (MD5 b).length = 16)
    (fuel : Nat) (a a1 : archive) (msg : List Nat)
    (hlen : a.len = a.str.length) (h5 : 5 ≤ a.len) (hlt : a.len < UINT32)
    (h255 : (payload_of msg).length ≤ 255)
    (h : add_message MD5 fuel a msg = some (1, a1)) :
    1 ≤ (payload_of msg).length ∧ (payload_of msg).length ≤ 255 ∧
    ∃ code md5, code.length = 16 ∧ md5.length = 16 ∧
      a1.str.drop a.len = (payload_of msg).length :: (payload_of msg ++ (code ++ md5)) := by
  obtain ⟨hn, code, md5, hm, hstr, _, _, _⟩ :=
    add_message_one MD5 h16 fuel a a1 msg hlen hlt h
  obtain ⟨hc16, hmd, _, _⟩ := mine_some MD5 _ fuel 0 code md5 hm
  have hm16 : md5.length = 16 := by rw [hmd]; exact h16 _
  have hpm : parse_message msg = (payload_of msg).length := by
    have h1 := parse_message_eq msg
    by_cases hall : ∀ c ∈ payload_of msg, 32 ≤ c ∧ c ≤ 126
    · rw [h1, if_pos hall]
    · rw [if_neg hall] at h1
      rw [h1] at hn
      simp at hn
  have hn1 : parse_message msg % 65536 = (payload_of msg).length := by
    rw [hpm]; exact Nat.mod_eq_of_lt (by omega)
  have hn2 : (payload_of msg).length % 256 = (payload_of msg).length :=
    Nat.mod_eq_of_lt (by omega)
  rw [hn1] at hn
  rw [hn1, hn2, take_length_payload_of] at hstr
  refine ⟨by omega, h255, code, md5, hc16, hm16, ?_⟩
  rw [hstr, drop_bump_size_bytes _ _ h5]
  exact List.drop_left' hlen.symm

/-- C10. For an archive built from `init_archive` by calls of `add_message` on valid
messages, the receive loop of `process_archive`, run on the bytes of the archive
after the type byte (whatever follows them on the socket), rebuilds a struct with the
same `str`, `size` and `len`; its `offset` is 5.  The archive is assumed to fit the
32-bit `len` field. -/
theorem recv_archive_add_all (MD5 : List Nat → List Nat) (h16 : ∀ b, (MD5 b).length = 16)
    (fuel : Nat) (msgs : List (List Nat)) (a : archive)
    (hv : ∀ m ∈ msgs, valid_msg m) (hfit : wire_len msgs < UINT32)
    (h : add_all MD5 fuel init_archive msgs = some a) (more : List Nat) :
    recv_archive (a.str.drop 1 ++ more)
      = some { str := a.str, offset := 5, size := a.size, len := a.len } := by
  obtain ⟨es, hs⟩ := stores_of_add_all MD5 h16 fuel msgs a hv hfit h
  exact recv_archive_stores MD5 msgs a es hs (by rw [hs.len_wire]; exact hfit) more

/-! ## The digest of each entry -/

theorem entry_index_flat (MD5 : List Nat → List Nat) (n : Nat) (es : List Entry)
    (hc : Chain MD5 es) (j : Nat) (hj : j ≤ es.length) :
    entry_index (4 :: (size_bytes n ++ flat es)) j = 5 + (flat (es.take j)).length := by
  induction j with
  | zero => simp [entry_index, flat]
  | succ j ih =>
    have hj1 : j < es.length := by omega
    obtain ⟨x, hx, ht, hf⟩ := flat_take_succ es j hj1
    have hxw := chain_wf_of_mem MD5 es hc x hx
    rw [entry_index, ih (by omega), getD_header_flat n j es x _ hf, ht, List.length_append,
      entry_length_bytes x hxw]
    omega

/-- C9 (amended). In an archive built from `init_archive` by calls of `add_message` on
valid messages, the stored digest of every entry `k` begins with two zero bytes and
is the MD5 of the stored bytes from the first byte of entry `k - min(20, k) + 1` up
to the digest of entry `k`: the min(19, k - 1) entries before entry `k` whole, their
digests included, followed by the length byte, payload and code of entry `k`. -/
theorem entry_digest_stored_window (MD5 : List Nat → List Nat)
    (h16 : ∀ b, (MD5 b).length = 16) (fuel : Nat) (msgs : List (List Nat)) (a : archive)
    (hv : ∀ m ∈ msgs, valid_msg m) (hfit : wire_len msgs < UINT32)
    (h : add_all MD5 fuel init_archive msgs = some a) (k : Nat) (hk1 : 1 ≤ k)
    (hk : k ≤ a.size) :
    entry_digest a.str k = MD5 (stored_window a.str k) ∧
      (entry_digest a.str k).take 2 = [0, 0] := by
  obtain ⟨es, hs⟩ := stores_of_add_all MD5 h16 fuel msgs a hv hfit h
  rw [hs.size_eq] at hk
  have hj : k - 1 < es.length := by omega
  -- the entries before entry k, entry k itself, the entries after it
  have hes : es = es.take (k - 1) ++ es[k - 1] :: es.drop (k - 1 + 1) := by
    conv_lhs => rw [← List.take_append_drop (k - 1) es, List.drop_eq_getElem_cons hj]
  obtain ⟨hw, hseal, hz0, hz1⟩ := hs.chain _ _ _ hes
  generalize es[k - 1] = e at hes hw hseal hz0 hz1
  have hlt : (es.take (k - 1)).length = k - 1 := by
    rw [List.length_take]; omega
  rw [hlt] at hseal
  have hj0 : k - min 20 k = k - 1 - 19 := by omega
  have hidx := entry_index_flat MD5 es.length es hs.chain (k - 1) (by omega)
  have hidx0 := entry_index_flat MD5 es.length es hs.chain (k - 1 - 19) (by omega)
  rw [← hs.str_eq] at hidx hidx0
  -- the bytes of the archive, cut at the window of entry k
  have hpre : es.take (k - 1)
      = es.take (k - 1 - 19) ++ (es.take (k - 1)).drop (k - 1 - 19) := by
    conv_lhs => rw [← List.take_append_drop (k - 1 - 19) (es.take (k - 1))]
    rw [List.take_take, Nat.min_eq_left (by omega)]
  have hcut : a.str = (4 :: (size_bytes es.length ++ flat (es.take (k - 1 - 19)))) ++
      ((flat ((es.take (k - 1)).drop (k - 1 - 19)) ++ e.head) ++
        (e.md5 ++ flat (es.drop (k - 1 + 1)))) := by
    have hfl := congrArg flat hes
    rw [flat_append, hpre, flat_append] at hfl
    rw [hs.str_eq, hfl]
    simp [flat, Entry.bytes, Entry.head]
  have hlen0 : (4 :: (size_bytes es.length ++ flat (es.take (k - 1 - 19)))).length
      = 5 + (flat (es.take (k - 1 - 19))).length := by
    simp [size_bytes]; omega
  have hflat : (flat (es.take (k - 1))).length = (flat (es.take (k - 1 - 19))).length
      + (flat ((es.take (k - 1)).drop (k - 1 - 19))).length := by
    conv_lhs => rw [hpre, flat_append, List.length_append]
  have hL : a.str.getD (5 + (flat (es.take (k - 1))).length) 0 = e.payload.length := by
    rw [hs.str_eq]
    apply getD_header_flat es.length (k - 1) es e (flat (es.drop (k - 1 + 1)))
    conv_lhs => rw [hes, flat_append]
    simp [flat]
  have hhead := entry_length_head e hw
  have hdig : entry_digest a.str k = e.md5 := by
    unfold entry_digest
    rw [hidx, hL]
    conv_lhs => rw [hcut, ← List.append_assoc]
    apply slice_at _ _ _ _ _ _ hw.2.2.symm
    rw [List.length_append, List.length_append, hlen0, hhead, hflat]
    omega
  constructor
  · rw [hdig, hseal]
    congr 1
    symm
    unfold stored_window
    rw [hj0, hidx0, hidx, hL]
    conv_lhs => rw [hcut]
    apply slice_at _ _ _ _ _ hlen0.symm
    rw [List.length_append, hhead, hflat]
    omega
  · rw [hdig]
    exact take_two_of_getD e.md5 hw.2.2 hz0 hz1

/-! ## Evaluated runs -/

theorem md5_test_suite :
    RFC1321.md5 [] = [212, 29, 140, 217, 143, 0, 178, 4, 233, 128, 9, 152, 236, 248, 66, 126] ∧
    RFC1321.md5 [97] = [12, 193, 117, 185, 192, 241, 182, 168, 49, 195, 153, 226, 105, 119, 38, 97] ∧
    RFC1321.md5 [97, 98, 99]
      = [144, 1, 80, 152, 60, 210, 79, 176, 214, 150, 63, 125, 40, 225, 127, 114] := by
  decide!

theorem add_message_hello :
    add_message RFC1321.md5 3 init_archive msg_hello = some (1, arch_hello) := by
  decide!

theorem add_message_world :
    add_message RFC1321.md5 3 arch_hello msg_world = some (1, arch_hello_world) := by
  decide!

theorem add_all_hello :
    add_all RFC1321.md5 3 init_archive [msg_hello] = some arch_hello := by
  decide!

theorem add_all_hello_world :
    add_all RFC1321.md5 3 init_archive [msg_hello, msg_world] = some arch_hello_world := by
  decide!

theorem valid_hello_world : ∀ m ∈ [msg_hello, msg_world], valid_msg m := by
  decide

/-- Witness of C1: the archive of "hello 105915" and "world 14444". -/
theorem is_valid_add_all_witness :
    (∀ m ∈ [msg_hello, msg_world], valid_msg m) ∧
    add_all RFC1321.md5 3 init_archive [msg_hello, msg_world] = some arch_hello_world ∧
    (is_valid RFC1321.md5 arch_hello_world).1 = 1 :=
  ⟨valid_hello_world, add_all_hello_world,
    is_valid_add_all RFC1321.md5 length_md5 3 [msg_hello, msg_world] arch_hello_world
      valid_hello_world (by decide) add_all_hello_world⟩

/-- Witness of C2: "world 14444" added to the archive of "hello 105915". -/
theorem add_message_size_len_witness :
    add_all RFC1321.md5 3 init_archive [msg_hello] = some arch_hello ∧
    add_message RFC1321.md5 3 arch_hello msg_world = some (1, arch_hello_world) ∧
    arch_hello_world.size = arch_hello.size + 1 ∧
    arch_hello_world.len = arch_hello.len + (parse_message msg_world % 65536 + 33) ∧
    read_size (arch_hello_world.str.getD 1 0) (arch_hello_world.str.getD 2 0)
      (arch_hello_world.str.getD 3 0) (arch_hello_world.str.getD 4 0)
        = arch_hello_world.size :=
  ⟨add_all_hello, add_message_world,
    add_message_size_len RFC1321.md5 length_md5 3 3 [msg_hello] arch_hello arch_hello_world
      msg_world add_all_hello (by decide) add_message_world⟩

/-- Witness of C3: "world 14444" added to the archive of "hello 105915". -/
theorem add_message_digest_witness :
    add_message RFC1321.md5 3 arch_hello msg_world = some (1, arch_hello_world) ∧
    ((arch_hello_world.str.drop arch_hello.len).drop (parse_message msg_world % 65536 + 17)).take 2
      = [0, 0] ∧
    (arch_hello_world.str.drop arch_hello.len).drop (parse_message msg_world % 65536 + 17)
      = RFC1321.md5 ((arch_hello.str.drop arch_hello.offset).take
          (arch_hello.len - arch_hello.offset)
          ++ (arch_hello_world.str.drop arch_hello.len).take
            (parse_message msg_world % 65536 + 17)) :=
  ⟨add_message_world,
    (add_message_digest RFC1321.md5 length_md5 3 arch_hello arch_hello_world msg_world rfl
      (by decide) (by decide) add_message_world).2.2⟩

theorem recv_hello_world :
    recv_archive (arch_hello_world.str.drop 1) = some arch_hello_world := by
  decide

/-- Witness of C4: a peer with the empty archive receives the archive of
"hello 105915" and "world 14444". -/
theorem process_archive_swap_witness :
    recv_archive (arch_hello_world.str.drop 1) = some arch_hello_world ∧
    arch_hello_world.size > init_archive.size ∧
    (is_valid RFC1321.md5 arch_hello_world).1 = 1 ∧
    process_archive RFC1321.md5 init_archive (arch_hello_world.str.drop 1)
      = some (is_valid RFC1321.md5 arch_hello_world).2 :=
  have hv : (is_valid RFC1321.md5 arch_hello_world).1 = 1 := by decide!
  ⟨recv_hello_world, by decide, hv,
    ((process_archive_swap RFC1321.md5 init_archive arch_hello_world
      (arch_hello_world.str.drop 1) recv_hello_world).1 ⟨by decide, hv⟩).1⟩

/-- Witness of C7: a message with a tab leaves the archive of "hello 105915" as it
is. -/
theorem add_message_invalid_witness :
    (payload_of msg_tab = [] ∨ ∃ c ∈ payload_of msg_tab, c < 32 ∨ 126 < c) ∧
    add_message RFC1321.md5 3 arch_hello msg_tab = some (0, arch_hello) :=
  ⟨by decide, add_message_invalid RFC1321.md5 3 arch_hello msg_tab (by decide)⟩

/-- Counterexample of C8: on the empty archive, `add_message` returns 1 on a string of
256 printable bytes; the length byte stored at index 5 is 0, and the 256 bytes of the
string follow it (then the 32 bytes of code and digest). -/
theorem add_message_256_length_byte :
    msg_256.length = 256 ∧ (∀ c ∈ msg_256, 32 ≤ c ∧ c ≤ 126) ∧
    (add_message RFC1321.md5 1 init_archive msg_256).map
      (fun r => (r.1, r.2.str.getD 5 0, decide ((r.2.str.drop 6).take 256 = msg_256),
        (r.2.str.drop 6).length)) = some (1, 0, true, 288) := by
  decide!

/-- Witness of C8 (amended): "world 14444" added to the archive of "hello 105915". -/
theorem add_message_length_byte_witness :
    (payload_of msg_world).length ≤ 255 ∧
    add_message RFC1321.md5 3 arch_hello msg_world = some (1, arch_hello_world) ∧
    1 ≤ (payload_of msg_world).length ∧
    ∃ code md5, code.length = 16 ∧ md5.length = 16 ∧
      arch_hello_world.str.drop arch_hello.len
        = (payload_of msg_world).length :: (payload_of msg_world ++ (code ++ md5)) :=
  have h := add_message_length_byte RFC1321.md5 length_md5 3 arch_hello arch_hello_world
    msg_world rfl (by decide) (by decide) (by decide) add_message_world
  ⟨by decide, add_message_world, h.1, h.2.2⟩

/-- Counterexample of C9: in the archive of "hello 105915" and "world 14444", built by
`add_message`, the stored digest of entry 2 is not the MD5 of the window of the data
model (length byte, payload and code of entries 1 and 2, the digest of entry 1 left
out); it is the MD5 of the stored bytes, the digest of entry 1 included. -/
theorem entry_digest_ne_spec_window :
    (∀ m ∈ [msg_hello, msg_world], valid_msg m) ∧
    add_all RFC1321.md5 3 init_archive [msg_hello, msg_world] = some arch_hello_world ∧
    entry_digest arch_hello_world.str 2 ≠ RFC1321.md5 (spec_window arch_hello_world.str 2) ∧
    entry_digest arch_hello_world.str 2
      = RFC1321.md5 (stored_window arch_hello_world.str 2) := by
  decide!

/-- Witness of C9 (amended): entry 2 of the archive of "hello 105915" and
"world 14444". -/
theorem entry_digest_stored_window_witness :
    add_all RFC1321.md5 3 init_archive [msg_hello, msg_world] = some arch_hello_world ∧
    entry_digest arch_hello_world.str 2
      = RFC1321.md5 (stored_window arch_hello_world.str 2) :=
  ⟨add_all_hello_world,
    (entry_digest_stored_window RFC1321.md5 length_md5 3 [msg_hello, msg_world]
      arch_hello_world valid_hello_world (by decide) add_all_hello_world 2 (by decide)
      (by decide)).1⟩

/-- Witness of C10: the bytes of the archive of "hello 105915" and "world 14444",
followed on the socket by a PeerRequest byte. -/
theorem recv_archive_add_all_witness :
    add_all RFC1321.md5 3 init_archive [msg_hello, msg_world] = some arch_hello_world ∧
    recv_archive (arch_hello_world.str.drop 1 ++ [1])
      = some { str := arch_hello_world.str, offset := 5, size := arch_hello_world.size,
               len := arch_hello_world.len } :=
  ⟨add_all_hello_world,
    recv_archive_add_all RFC1321.md5 length_md5 3 [msg_hello, msg_world] arch_hello_world
      valid_hello_world (by decide) add_all_hello_world [1]⟩

theorem add_all_append (MD5 : List Nat → List Nat) (fuel : Nat) (xs ys : List (List Nat)) :
    ∀ a : archive, add_all MD5 fuel a (xs ++ ys)
      = (add_all MD5 fuel a xs).bind fun b => add_all MD5 fuel b ys := by
  induction xs with
  | nil => intro a; rfl
  | cons m xs ih =>
    intro a
    simp only [List.cons_append, add_all]
    split
    · exact ih _
    · rfl

theorem add_all_msgs_7 :
    add_all RFC1321.md5 1 init_archive (msgs_21.take 7) = some (archive_cut arch_21 7 265 5) := by
  decide!

theorem add_all_msgs_14 :
    add_all RFC1321.md5 1 (archive_cut arch_21 7 265 5) ((msgs_21.drop 7).take 7)
      = some (archive_cut arch_21 14 524 5) := by
  decide!

theorem add_all_msgs_20 :
    add_all RFC1321.md5 1 (archive_cut arch_21 14 524 5) ((msgs_21.drop 14).take 6)
      = some (archive_cut arch_21 20 746 43) := by
  decide!

theorem add_all_msgs_last :
    add_all RFC1321.md5 1 (archive_cut arch_21 20 746 43) (msgs_21.drop 20) = some arch_21 := by
  decide!

theorem add_all_take_20 :
    add_all RFC1321.md5 1 init_archive (msgs_21.take 20)
      = some (archive_cut arch_21 20 746 43) := by
  have h : msgs_21.take 20
      = msgs_21.take 7 ++ ((msgs_21.drop 7).take 7 ++ (msgs_21.drop 14).take 6) := by decide
  rw [h, add_all_append, add_all_msgs_7, Option.some_bind, add_all_append, add_all_msgs_14,
    Option.some_bind, add_all_msgs_20]

theorem add_all_msgs_21 :
    add_all RFC1321.md5 1 init_archive msgs_21 = some arch_21 := by
  have h : msgs_21 = msgs_21.take 20 ++ msgs_21.drop 20 := by decide
  rw [h, add_all_append, add_all_take_20, Option.some_bind, add_all_msgs_last]

theorem recv_arch_21 :
    recv_archive (arch_21.str.drop 1) = some { arch_21 with offset := 5 } := by
  decide!

theorem is_valid_arch_21 :
    is_valid RFC1321.md5 { arch_21 with offset := 5 } = (1, { arch_21 with offset := 81 }) := by
  decide!

theorem process_archive_arch_21 :
    process_archive RFC1321.md5 init_archive (arch_21.str.drop 1)
      = some { arch_21 with offset := 81 } := by
  unfold process_archive
  rw [recv_arch_21]
  simp only [is_valid_arch_21]
  rfl

theorem add_message_msg_22 :
    add_message RFC1321.md5 1 { arch_21 with offset := 81 } msg_22 = some (1, arch_22) := by
  decide!

theorem recv_arch_22 :
    recv_archive (arch_22.str.drop 1) = some { arch_22 with offset := 5 } := by
  decide!

theorem is_valid_arch_22 : (is_valid RFC1321.md5 { arch_22 with offset := 5 }).1 = 0 := by
  decide!

/-- C5, the code at the failing input.  A peer builds an archive of 21 valid messages
(the first of 5 bytes, the second of 4); a second peer receives it, `is_valid`
returns 1 and the archive is swapped in (the size of its active archive is 21); the
second peer adds the valid message "fudn" and `add_message` returns 1; a third peer
receives the result and `is_valid` returns 0. -/
theorem relay_then_add_rejected :
    (∀ m ∈ msgs_21, valid_msg m) ∧ valid_msg msg_22 ∧
    relay_then_add RFC1321.md5 1 msgs_21 msg_22 = some (1, 21, 0) := by
  refine ⟨by decide, by decide, ?_⟩
  unfold relay_then_add
  rw [add_all_msgs_21, Option.some_bind, process_archive_arch_21, Option.some_bind,
    add_message_msg_22, Option.some_bind, recv_arch_22, Option.map_some', is_valid_arch_22]
  rfl

/-! ## Digests that do not start with two zero bytes -/

theorem getD_take_drop (l : List Nat) (n j : Nat) (hj : j < 16) :
    ((l.drop n).take 16).getD j 0 = l.getD (n + j) 0 := by
  simp only [List.getD_eq_getElem?_getD, List.getElem?_take, List.getElem?_drop, hj, if_true]

/-- A digest that does not start with two zero bytes, in any entry that the loop of
`is_valid` still has to visit, makes the loop return 0. -/
theorem is_valid_loop_nonzero (MD5 : List Nat → List Nat) (str : List Nat) (k : Nat) :
    ∀ (i begin_ end_ md5len offset j t : Nat), end_ = entry_index str j → t < k →
      (str.getD (entry_index str (j + t) + (str.getD (entry_index str (j + t)) 0 + 17)) 0 ≠ 0 ∨
       str.getD (entry_index str (j + t) + (str.getD (entry_index str (j + t)) 0 + 17) + 1) 0
         ≠ 0) →
      (is_valid_loop MD5 str k i begin_ end_ md5len offset).1 = 0 := by
  induction k with
  | zero => intro i b e m o j t _ ht; omega
  | succ k ih =>
    intro i b e m o j t he ht hnz
    rw [is_valid_loop]
    simp only
    by_cases hz : str.getD (e + (str.getD e 0 + 17)) 0 ≠ 0 ∨
        str.getD (e + (str.getD e 0 + 17) + 1) 0 ≠ 0
    · rw [if_pos hz]
    · rw [if_neg hz]
      split_ifs
      all_goals first
        | rfl
        | (have ht0 : t ≠ 0 := by
            intro h0
            subst h0
            rw [Nat.add_zero, ← he] at hnz
            exact hz hnz
           apply ih _ _ _ _ _ (j + 1) (t - 1) _ (by omega)
           · have : j + 1 + (t - 1) = j + t := by omega
             rw [this]; exact hnz
           · rw [entry_index, ← he]; omega)

/-- C11. For every archive struct and every entry `i` with 1 ≤ i ≤ size, located by
walking the length bytes from byte 5: if the first or the second byte of the stored
digest of entry `i` is not zero, `is_valid` returns 0, and `process_archive`, having
received that archive as its candidate, leaves the active archive unchanged. -/
theorem is_valid_nonzero_digest (MD5 : List Nat → List Nat) (cand : archive) (i : Nat)
    (hi1 : 1 ≤ i) (hi : i ≤ cand.size)
    (hnz : (entry_digest cand.str i).getD 0 0 ≠ 0 ∨ (entry_digest cand.str i).getD 1 0 ≠ 0) :
    (is_valid MD5 cand).1 = 0 ∧
    ∀ (active_arch : archive) (wire : List Nat), recv_archive wire = some cand →
      process_archive MD5 active_arch wire = some active_arch := by
  have hv : (is_valid MD5 cand).1 = 0 := by
    unfold entry_digest at hnz
    rw [getD_take_drop _ _ 0 (by omega), getD_take_drop _ _ 1 (by omega), Nat.add_zero] at hnz
    apply is_valid_loop_nonzero MD5 cand.str cand.size 1 5 5 0 cand.offset 0 (i - 1) rfl
      (by omega)
    rw [Nat.zero_add]
    exact hnz
  refine ⟨hv, ?_⟩
  intro active_arch wire hr
  unfold process_archive
  rw [hr]
  simp only [hv, ne_eq, not_true_eq_false, and_false, if_false]

theorem recv_forged : recv_archive (arch_forged.str.drop 1) = some arch_forged := by
  decide

/-- Witness of C11: the digest of entry 2 of the forged archive starts with 1; a peer
that holds the archive of "hello 105915" keeps it. -/
theorem is_valid_nonzero_digest_witness :
    (1 ≤ 2 ∧ 2 ≤ arch_forged.size) ∧
    ((entry_digest arch_forged.str 2).getD 0 0 ≠ 0 ∨
      (entry_digest arch_forged.str 2).getD 1 0 ≠ 0) ∧
    (is_valid RFC1321.md5 arch_forged).1 = 0 ∧
    process_archive RFC1321.md5 arch_hello (arch_forged.str.drop 1) = some arch_hello :=
  have h := is_valid_nonzero_digest RFC1321.md5 arch_forged 2 (by decide) (by decide)
    (Or.inl (by decide))
  ⟨⟨by decide, by decide⟩, Or.inl (by decide), h.1, h.2 arch_hello _ recv_forged⟩

/-! ## The code that `add_message` mines -/

theorem le_value_leBytes (k n : Nat) : le_value (RFC1321.leBytes k n) = n % 256 ^ k := by
  induction k generalizing n with
  | zero => simp [RFC1321.leBytes, le_value, Nat.mod_one]
  | succ k ih =>
    simp only [RFC1321.leBytes, le_value, ih]
    show n % 256 + 256 * (n / 256 % 256 ^ k) = n % 256 ^ (k + 1)
    rw [pow_succ, Nat.mul_comm (256 ^ k) 256, Nat.mod_mul]

theorem le_value_int128_bytes (n : Nat) (h : n < 2 ^ 128) : le_value (int128_bytes n) = n := by
  unfold int128_bytes
  rw [le_value_leBytes]
  exact Nat.mod_eq_of_lt (by
    have : (256 : Nat) ^ 16 = 2 ^ 128 := by norm_num
    omega)

/-- The search of `mine` from the counter `c`: the code found is the counter after
`t` increments, and no earlier counter of the search gives two zero bytes. -/
theorem mine_first (MD5 : List Nat → List Nat) (buf : List Nat) (fuel : Nat) :
    ∀ (c : Nat) (code md5 : List Nat), c < 2 ^ 128 →
      mine MD5 buf fuel c = some (code, md5) →
      ∃ t, t < fuel ∧ code = int128_bytes ((c + t) % 2 ^ 128) ∧
        ((MD5 (buf ++ code)).getD 0 0 = 0 ∧ (MD5 (buf ++ code)).getD 1 0 = 0) ∧
        ∀ s, s < t → ¬ ((MD5 (buf ++ int128_bytes ((c + s) % 2 ^ 128))).getD 0 0 = 0 ∧
          (MD5 (buf ++ int128_bytes ((c + s) % 2 ^ 128))).getD 1 0 = 0) := by
  induction fuel with
  | zero => intro c code md5 _ h; simp [mine] at h
  | succ fuel ih =>
    intro c code md5 hc h
    simp only [mine] at h
    split at h
    · rename_i hz
      simp only [Option.some.injEq, Prod.mk.injEq] at h
      obtain ⟨h1, _⟩ := h
      subst h1
      refine ⟨0, by omega, by rw [Nat.add_zero, Nat.mod_eq_of_lt hc], hz, ?_⟩
      intro s hs; omega
    · rename_i hz
      obtain ⟨t, ht, hcode, hzero, hmin⟩ :=
        ih _ code md5 (Nat.mod_lt _ (by positivity)) h
      refine ⟨t + 1, by omega, ?_, hzero, ?_⟩
      · rw [hcode, Nat.mod_add_mod]
        congr 2; omega
      · intro s hs
        rcases Nat.eq_zero_or_pos s with h0 | hpos
        · subst h0
          rw [Nat.add_zero, Nat.mod_eq_of_lt hc]
          exact hz
        · have := hmin (s - 1) (by omega)
          rw [Nat.mod_add_mod] at this
          have e : c + 1 + (s - 1) = c + s := by omega
          rw [e] at this
          exact this

/-- The code that `mine` finds from counter 0 is the least counter whose digest
starts with two zero bytes. -/
theorem mine_least (MD5 : List Nat → List Nat) (buf : List Nat) (fuel : Nat)
    (code md5 : List Nat) (h : mine MD5 buf fuel 0 = some (code, md5)) :
    ∃ n, n < fuel ∧ n < 2 ^ 128 ∧ code = int128_bytes n ∧
      ((MD5 (buf ++ int128_bytes n)).getD 0 0 = 0 ∧
        (MD5 (buf ++ int128_bytes n)).getD 1 0 = 0) ∧
      ∀ m, m < n → ¬ ((MD5 (buf ++ int128_bytes m)).getD 0 0 = 0 ∧
        (MD5 (buf ++ int128_bytes m)).getD 1 0 = 0) := by
  obtain ⟨t, htf, hcode, hzero, hmin⟩ := mine_first MD5 buf fuel 0 code md5 (by positivity) h
  rw [Nat.zero_add] at hcode
  have hlt : t % 2 ^ 128 < 2 ^ 128 := Nat.mod_lt _ (by positivity)
  have ht : t < 2 ^ 128 := by
    by_contra hge
    have h1 := hmin (t % 2 ^ 128) (by omega)
    rw [Nat.zero_add, Nat.mod_mod, ← hcode] at h1
    exact h1 hzero
  rw [Nat.mod_eq_of_lt ht] at hcode
  refine ⟨t, htf, ht, hcode, by rw [← hcode]; exact hzero, ?_⟩
  intro m hm
  have := hmin m hm
  rwa [Nat.zero_add, Nat.mod_eq_of_lt (by omega)] at this

/-- The search of `mine` returns when some counter within the fuel gives two zero
bytes. -/
theorem mine_enough (MD5 : List Nat → List Nat) (buf : List Nat) (fuel : Nat) :
    ∀ (c t : Nat), c + t < 2 ^ 128 → t < fuel →
      ((MD5 (buf ++ int128_bytes (c + t))).getD 0 0 = 0 ∧
        (MD5 (buf ++ int128_bytes (c + t))).getD 1 0 = 0) →
      ∃ r, mine MD5 buf fuel c = some r := by
  induction fuel with
  | zero => intro c t _ ht; omega
  | succ fuel ih =>
    intro c t hc ht hz
    simp only [mine]
    split
    · exact ⟨_, rfl⟩
    · rename_i hnz
      have ht0 : t ≠ 0 := by
        intro h0; subst h0; exact hnz hz
      have hc1 : (c + 1) % 2 ^ 128 = c + 1 := Nat.mod_eq_of_lt (by omega)
      rw [hc1]
      apply ih (c + 1) (t - 1) (by omega) (by omega)
      have e : c + 1 + (t - 1) = c + t := by omega
      rw [e]; exact hz

/-- C18. For every archive and every message that `parse_message` accepts: if some
counter `n0` below the fuel gives the mining buffer `newmsg` followed by its 16
little-endian bytes a digest with two zero bytes, `add_message` returns 1, and the 16
bytes of code of the entry it appends, read as a little-endian 128-bit integer, are
the least value `n` whose 16-byte little-endian encoding after the mining buffer gives
a digest that starts with two zero bytes; no smaller counter does. -/
theorem add_message_least_code (MD5 : List Nat → List Nat) (h16 : ∀ b, (MD5 b).length = 16)
    (fuel : Nat) (a : archive) (msg : List Nat)
    (hlen : a.len = a.str.length) (h5 : 5 ≤ a.len) (hlt : a.len < UINT32)
    (hmsg : parse_message msg % 65536 ≠ 0)
    (n0 : Nat) (hn0 : n0 < 2 ^ 128) (hfuel : n0 < fuel)
    (hz0 : (MD5 (newmsg a msg ++ int128_bytes n0)).getD 0 0 = 0 ∧
      (MD5 (newmsg a msg ++ int128_bytes n0)).getD 1 0 = 0) :
    ∃ a1 n, add_message MD5 fuel a msg = some (1, a1) ∧ n ≤ n0 ∧
      ((a1.str.drop a.len).drop (parse_message msg % 65536 + 1)).take 16 = int128_bytes n ∧
      le_value (((a1.str.drop a.len).drop (parse_message msg % 65536 + 1)).take 16) = n ∧
      ((MD5 (newmsg a msg ++ int128_bytes n)).getD 0 0 = 0 ∧
        (MD5 (newmsg a msg ++ int128_bytes n)).getD 1 0 = 0) ∧
      ∀ m, m < n → ¬ ((MD5 (newmsg a msg ++ int128_bytes m)).getD 0 0 = 0 ∧
        (MD5 (newmsg a msg ++ int128_bytes m)).getD 1 0 = 0) := by
  obtain ⟨⟨code, md5⟩, hm⟩ := mine_enough MD5 (newmsg a msg) fuel 0 n0 (by omega) hfuel
    (by rw [Nat.zero_add]; exact hz0)
  obtain ⟨n, _, hn, hcode, hzero, hmin⟩ := mine_least MD5 _ fuel code md5 hm
  obtain ⟨hc16, _, _, _⟩ := mine_some MD5 _ fuel 0 code md5 hm
  have hle : n ≤ n0 := by
    by_contra hgt
    exact hmin n0 (by omega) hz0
  have hadd : ∃ a1, add_message MD5 fuel a msg = some (1, a1) := by
    unfold add_message
    simp only [if_neg hmsg]
    unfold newmsg at hm
    rw [hm]
    exact ⟨_, rfl⟩
  obtain ⟨a1, hadd⟩ := hadd
  refine ⟨a1, n, hadd, hle, ?_⟩
  obtain ⟨_, code2, md52, hm2, hstr, _, _, _⟩ :=
    add_message_one MD5 h16 fuel a a1 msg hlen hlt hadd
  have htail : (a.str.drop a.offset).take ((a.len + UINT32 - a.offset) % UINT32)
      = a.str.drop a.offset := by
    apply List.take_of_length_le
    rw [List.length_drop, ← hlen]
    by_cases ho : a.offset ≤ a.len
    · have : (a.len + UINT32 - a.offset) % UINT32 = a.len - a.offset := by
        have e : a.len + UINT32 - a.offset = (a.len - a.offset) + UINT32 := by omega
        rw [e, Nat.add_mod_right]
        exact Nat.mod_eq_of_lt (by omega)
      omega
    · omega
  have hbuf : newmsg a msg = a.str.drop a.offset ++
      (parse_message msg % 65536 % 256 :: msg.take (parse_message msg % 65536)) := by
    unfold newmsg; rw [htail]
  rw [← hbuf, hm] at hm2
  simp only [Option.some.injEq, Prod.mk.injEq] at hm2
  obtain ⟨hc2, hd2⟩ := hm2
  subst hc2 hd2
  have hpl : (msg.take (parse_message msg % 65536)).length = parse_message msg % 65536 := by
    rw [List.length_take]
    have := parse_message_le_length msg
    have := Nat.mod_le (parse_message msg) 65536
    omega
  have hl1 : (parse_message msg % 65536 % 256 :: msg.take (parse_message msg % 65536)).length
      = parse_message msg % 65536 + 1 := by
    simp only [List.length_cons, hpl]
  have hcodeq : List.take 16 (List.drop (parse_message msg % 65536 + 1) (List.drop a.len
      (bump_size_bytes (a.str ++ (parse_message msg % 65536 % 256 ::
        (msg.take (parse_message msg % 65536) ++ (code ++ md5))))))) = code := by
    rw [drop_bump_size_bytes _ _ h5, List.drop_left' hlen.symm]
    have e : parse_message msg % 65536 % 256 ::
        (msg.take (parse_message msg % 65536) ++ (code ++ md5))
        = (parse_message msg % 65536 % 256 :: msg.take (parse_message msg % 65536))
          ++ (code ++ md5) := rfl
    rw [e, List.drop_left' hl1]
    exact List.take_left' hc16
  rw [hstr, hcodeq]
  exact ⟨hcode, by rw [hcode]; exact le_value_int128_bytes n hn, hzero, hmin⟩

/-- Witness of C18: "world 14444" added to the archive of "hello 105915"; counter 1
gives two zero bytes. -/
theorem add_message_least_code_witness :
    ((RFC1321.md5 (newmsg arch_hello msg_world ++ int128_bytes 1)).getD 0 0 = 0 ∧
      (RFC1321.md5 (newmsg arch_hello msg_world ++ int128_bytes 1)).getD 1 0 = 0) ∧
    ∃ a1 n, add_message RFC1321.md5 3 arch_hello msg_world = some (1, a1) ∧ n ≤ 1 ∧
      ((a1.str.drop arch_hello.len).drop (parse_message msg_world % 65536 + 1)).take 16
        = int128_bytes n ∧
      le_value (((a1.str.drop arch_hello.len).drop
        (parse_message msg_world % 65536 + 1)).take 16) = n ∧
      ((RFC1321.md5 (newmsg arch_hello msg_world ++ int128_bytes n)).getD 0 0 = 0 ∧
        (RFC1321.md5 (newmsg arch_hello msg_world ++ int128_bytes n)).getD 1 0 = 0) ∧
      ∀ m, m < n →
        ¬ ((RFC1321.md5 (newmsg arch_hello msg_world ++ int128_bytes m)).getD 0 0 = 0 ∧
          (RFC1321.md5 (newmsg arch_hello msg_world ++ int128_bytes m)).getD 1 0 = 0) :=
  have hz : (RFC1321.md5 (newmsg arch_hello msg_world ++ int128_bytes 1)).getD 0 0 = 0 ∧
      (RFC1321.md5 (newmsg arch_hello msg_world ++ int128_bytes 1)).getD 1 0 = 0 := by decide!
  ⟨hz, add_message_least_code RFC1321.md5 length_md5 3 arch_hello msg_world rfl (by decide)
    (by decide) (by decide) 1 (by norm_num) (by decide) hz⟩

/-! ## The offset of an archive -/

/-- C17 (as stated) fails: the archive of the 21 messages `msgs_21` has its offset at
byte 80, the length byte of entry 3; entry size - 19 = 2 starts at byte 43. -/
theorem offset_arch_21_ne :
    add_all RFC1321.md5 1 init_archive msgs_21 = some arch_21 ∧ 20 ≤ arch_21.size ∧
    arch_21.offset = 80 ∧ entry_index arch_21.str (arch_21.size - 19 - 1) = 43 ∧
    arch_21.offset ≠ entry_index arch_21.str (arch_21.size - 19 - 1) :=
  ⟨add_all_msgs_21, by decide, by decide, by decide, by decide⟩

/-- C17 (amended). For every archive obtained from `init_archive` by calls of
`add_message` on valid messages, `offset` is the byte index of the length byte of
entry size - 18, entries numbered from 1, when size ≥ 19 (the 19th entry from the
end), and is 5, the start of the first entry, when size ≤ 19. -/
theorem add_all_offset (MD5 : List Nat → List Nat) (h16 : ∀ b, (MD5 b).length = 16)
    (fuel : Nat) (msgs : List (List Nat)) (a : archive)
    (hv : ∀ m ∈ msgs, valid_msg m) (hfit : wire_len msgs < UINT32)
    (h : add_all MD5 fuel init_archive msgs = some a) :
    a.offset = entry_index a.str (a.size - 18 - 1) ∧ (a.size ≤ 19 → a.offset = 5) := by
  obtain ⟨es, hs⟩ := stores_of_add_all MD5 h16 fuel msgs a hv hfit h
  have h1 : a.offset = entry_index a.str (a.size - 18 - 1) := by
    rw [hs.offset_eq, hs.str_eq, hs.size_eq,
      entry_index_flat MD5 es.length es hs.chain (es.length - 18 - 1) (by omega)]
    have : es.length - 18 - 1 = es.length - 19 := by omega
    rw [this]
  refine ⟨h1, ?_⟩
  intro hle
  rw [h1]
  have : a.size - 18 - 1 = 0 := by omega
  rw [this]
  rfl

/-- Witness of C17 (amended): the archive of the 21 messages `msgs_21`, whose offset
80 is the start of entry 3. -/
theorem add_all_offset_witness :
    (∀ m ∈ msgs_21, valid_msg m) ∧ wire_len msgs_21 < UINT32 ∧
    add_all RFC1321.md5 1 init_archive msgs_21 = some arch_21 ∧
    arch_21.offset = entry_index arch_21.str (arch_21.size - 18 - 1) :=
  ⟨by decide, by decide, add_all_msgs_21,
    (add_all_offset RFC1321.md5 length_md5 1 msgs_21 arch_21 (by decide) (by decide)
      add_all_msgs_21).1⟩

/-- C16. The archive of the 21 messages `msgs_21`, whose first entry is one byte
longer than the others, has offset 80 where it was built; parsed into a fresh struct
with offset 5, `is_valid` returns 1 on it and leaves its offset at 81. -/
theorem is_valid_offset_arch_21 :
    (∀ m ∈ msgs_21, valid_msg m) ∧
    add_all RFC1321.md5 1 init_archive msgs_21 = some arch_21 ∧
    recv_archive (arch_21.str.drop 1) = some { arch_21 with offset := 5 } ∧
    (is_valid RFC1321.md5 { arch_21 with offset := 5 }).1 = 1 ∧
    (is_valid RFC1321.md5 { arch_21 with offset := 5 }).2.offset = 81 ∧
    arch_21.offset = 80 := by
  refine ⟨by decide, add_all_msgs_21, recv_arch_21, ?_, ?_, by decide⟩
  · rw [is_valid_arch_21]
  · rw [is_valid_arch_21]

/-! ## The receive buffer of process_archive -/

/-- Every entry that the receive loop stores takes at least 33 bytes. -/
theorem recv_entries_length (n : Nat) :
    ∀ (wire aux : List Nat) (len : Nat) (r : List Nat × Nat),
      recv_entries n wire aux len = some r → aux.length + 33 * n ≤ r.1.length := by
  induction n with
  | zero =>
    intro wire aux len r h
    simp only [recv_entries, Option.some.injEq] at h
    subst h
    simp
  | succ n ih =>
    intro wire aux len r h
    cases wire with
    | nil => simp [recv_entries] at h
    | cons msglen wire =>
      simp only [recv_entries] at h
      split at h
      · simp at h
      · rename_i hlen
        have := ih _ _ _ r h
        simp only [List.length_append, List.length_cons, List.length_take,
          List.length_drop] at this
        omega

/-- The receive loop reads `n` entries of length 0 from a wire of zero bytes. -/
theorem recv_entries_zeros (n : Nat) :
    ∀ (m : Nat) (aux : List Nat) (len : Nat), 33 * n ≤ m →
      ∃ r, recv_entries n (List.replicate m 0) aux len = some r := by
  induction n with
  | zero => intro m aux len _; exact ⟨_, rfl⟩
  | succ n ih =>
    intro m aux len hm
    obtain ⟨m1, rfl⟩ : ∃ m1, m = m1 + 1 := ⟨m - 1, by omega⟩
    rw [List.replicate_succ]
    simp only [recv_entries]
    rw [if_neg (by simp only [List.length_replicate]; omega), List.drop_replicate]
    exact ih _ _ _ (by omega)

/-- C19. For the entry count 14861479, sent as the size bytes 0, 226, 196, 167, the
capacity `5 + usize * 289` is 140 in 32-bit arithmetic, and the receive loop of
`process_archive`, given entries of length 0, stores more than 490 million bytes. -/
theorem recv_entries_overflow :
    read_size 0 226 196 167 = 14861479 ∧ malloc_size 14861479 = 140 ∧
    ∃ aux len, recv_entries 14861479 (List.replicate (33 * 14861479) 0)
        [4, 0, 226, 196, 167] 5 = some (aux, len) ∧
      malloc_size 14861479 < 490428807 ∧ 490428807 ≤ aux.length := by
  refine ⟨by decide, by decide, ?_⟩
  obtain ⟨⟨aux, len⟩, h⟩ := recv_entries_zeros 14861479 (33 * 14861479) [4, 0, 226, 196, 167] 5
    (Nat.le_refl _)
  refine ⟨aux, len, h, by decide, ?_⟩
  have := recv_entries_length 14861479 _ _ _ _ h
  simp only [List.length_cons, List.length_nil] at this
  omega

/-! ## The registry of peers -/

theorem list_to_str_loop_length (nodes : List node) :
    ∀ n, n = nodes.length → (list_to_str_loop n nodes).length = 4 * n := by
  induction nodes with
  | nil => intro n h; subst h; rfl
  | cons x rest ih =>
    intro n h
    subst h
    simp only [List.length_cons, list_to_str_loop, List.length_append, ih _ rfl, ip_bytes,
      List.length_nil]
    omega

theorem list_to_str_loop_slice (nodes : List node) :
    ∀ n, n = nodes.length → ∀ (j : Nat) (hj : j < nodes.length),
      ((list_to_str_loop n nodes).drop (4 * j)).take 4 = ip_bytes (nodes.get ⟨j, hj⟩).ip := by
  induction nodes with
  | nil => intro n _ j hj; simp at hj
  | cons x rest ih =>
    intro n h j hj
    subst h
    simp only [List.length_cons, list_to_str_loop]
    cases j with
    | zero =>
      simp only [Nat.mul_zero, List.drop_zero, List.get_eq_getElem, List.getElem_cons_zero]
      exact List.take_left' rfl
    | succ j =>
      have e : 4 * (j + 1) = (ip_bytes x.ip).length + 4 * j := by
        simp only [ip_bytes, List.length_cons, List.length_nil]; omega
      rw [e, List.drop_append]
      exact ih _ rfl j (by simpa using hj)

theorem uip_ip_bytes (ip : Nat) (h : ip < UINT32) :
    uip (ip % 256) (ip / 256 % 256) (ip / 65536 % 256) (ip / 16777216 % 256) = ip := by
  unfold uip
  unfold UINT32 at *
  omega

theorem getD_of_take_drop (f : List Nat) (n : Nat) (b0 b1 b2 b3 : Nat)
    (h : (f.drop n).take 4 = [b0, b1, b2, b3]) :
    f.getD n 0 = b0 ∧ f.getD (n + 1) 0 = b1 ∧ f.getD (n + 2) 0 = b2 ∧ f.getD (n + 3) 0 = b3 := by
  have key : ∀ j, j < 4 → f.getD (n + j) 0 = ([b0, b1, b2, b3] : List Nat).getD j 0 := by
    intro j hj
    rw [← h]
    simp only [List.getD_eq_getElem?_getD, List.getElem?_take, List.getElem?_drop, hj, if_true]
  exact ⟨by simpa using key 0 (by omega), by simpa using key 1 (by omega),
    by simpa using key 2 (by omega), by simpa using key 3 (by omega)⟩

/-- The frame that `list_to_str` computes, for a list whose `size` is the number of its
nodes. -/
theorem list_to_str_layout (list : peer_list) (hs : list.size = list.nodes.length)
    (hlt : 5 + 4 * list.size < UINT32) (hip : ∀ x ∈ list.nodes, x.ip < UINT32) :
    frame_layout (list_to_str list) := by
  have hn : ((5 + list.size * 4 % UINT32) % UINT32 - 5) / 4 = list.nodes.length := by
    rw [← hs]
    unfold UINT32 at *
    omega
  have hsz : list.size < UINT32 := by unfold UINT32 at *; omega
  refine ⟨_, rfl, hs, ?_, rfl, ?_, ?_, ?_⟩
  · show (2 :: (size_bytes list.size ++ list_to_str_loop _ list.nodes)).length
      = 5 + 4 * list.size
    rw [hn, List.length_cons, List.length_append, list_to_str_loop_length list.nodes _ rfl, hs]
    simp only [size_bytes, List.length_cons, List.length_nil]
    omega
  · simp only [list_to_str, List.drop_succ_cons, List.drop_zero]
    exact List.take_left' rfl
  · simp only [list_to_str, size_bytes, List.cons_append, List.nil_append,
      List.getD_cons_succ, List.getD_cons_zero]
    rw [read_size_size_bytes]
    exact Nat.mod_eq_of_lt hsz
  · intro j hj
    have h4 : (List.drop (5 + 4 * j) (2 :: (size_bytes list.size ++
        list_to_str_loop (((5 + list.size * 4 % UINT32) % UINT32 - 5) / 4) list.nodes))).take 4
        = ip_bytes (list.nodes.get ⟨j, hj⟩).ip := by
      have e : 2 :: (size_bytes list.size ++
          list_to_str_loop (((5 + list.size * 4 % UINT32) % UINT32 - 5) / 4) list.nodes)
          = (2 :: size_bytes list.size) ++
            list_to_str_loop (((5 + list.size * 4 % UINT32) % UINT32 - 5) / 4) list.nodes := rfl
      have e5 : 5 + 4 * j = (2 :: size_bytes list.size).length + 4 * j := by
        simp [size_bytes]
      rw [e, e5, List.drop_append, hn]
      exact list_to_str_loop_slice list.nodes _ rfl j hj
    refine ⟨h4, ?_⟩
    have hx := hip _ (List.get_mem list.nodes j hj)
    obtain ⟨g0, g1, g2, g3⟩ := getD_of_take_drop _ _ _ _ _ _ h4
    simp only [list_to_str] at g0 g1 g2 g3 ⊢
    rw [g0, g1, g2, g3]
    exact uip_ip_bytes _ hx

theorem unlink_some (ip : Nat) (nodes : List node) :
    ∀ r, unlink ip nodes = some r → r.length + 1 = nodes.length ∧ ∀ x ∈ r, x ∈ nodes := by
  induction nodes with
  | nil => intro r h; simp [unlink] at h
  | cons x rest ih =>
    intro r h
    simp only [unlink] at h
    split at h
    · simp only [Option.some.injEq] at h
      subst h
      exact ⟨rfl, fun y hy => List.mem_cons_of_mem _ hy⟩
    · cases hu : unlink ip rest with
      | none => rw [hu] at h; simp at h
      | some r1 =>
        rw [hu] at h
        simp only [Option.map_some', Option.some.injEq] at h
        subst h
        obtain ⟨h1, h2⟩ := ih r1 hu
        refine ⟨by simp only [List.length_cons]; omega, ?_⟩
        intro y hy
        rcases List.mem_cons.mp hy with hy | hy
        · subst hy; exact List.mem_cons_self _ _
        · exact List.mem_cons_of_mem _ (h2 y hy)

theorem unlink_of_mem (ip : Nat) (nodes : List node) (h : ∃ x ∈ nodes, x.ip = ip) :
    ∃ r, unlink ip nodes = some r := by
  induction nodes with
  | nil => obtain ⟨x, hx, _⟩ := h; simp at hx
  | cons y rest ih =>
    simp only [unlink]
    by_cases hy : y.ip = ip
    · rw [if_pos hy]; exact ⟨_, rfl⟩
    · rw [if_neg hy]
      obtain ⟨x, hx, hxi⟩ := h
      rcases List.mem_cons.mp hx with hx | hx
      · subst hx; exact absurd hxi hy
      · obtain ⟨r, hr⟩ := ih ⟨x, hx, hxi⟩
        rw [hr]; exact ⟨_, rfl⟩

theorem unlink_append_new (ip sock : Nat) (nodes : List node) (h : ∀ x ∈ nodes, x.ip ≠ ip) :
    unlink ip (nodes ++ [{ ip := ip, sock := sock }]) = some nodes := by
  induction nodes with
  | nil => simp [unlink]
  | cons y rest ih =>
    rw [List.cons_append, unlink, if_neg (h y (List.mem_cons_self _ _)),
      ih (fun x hx => h x (List.mem_cons_of_mem _ hx))]
    rfl

theorem run_calls_append (calls more : List peer_call) :
    ∀ list, run_calls list (calls ++ more) = run_calls (run_calls list calls) more := by
  induction calls with
  | nil => intro list; rfl
  | cons c calls ih =>
    intro list
    cases c with
    | add ip sock => exact ih _
    | remove ip => exact ih _

theorem calls_ok_append (calls more : List peer_call) :
    calls_ok (calls ++ more) ↔ calls_ok calls ∧ calls_ok more := by
  induction calls with
  | nil => simp [calls_ok]
  | cons c calls ih =>
    cases c with
    | add ip sock =>
      rw [List.cons_append]
      simp only [calls_ok, ih, and_assoc]
    | remove ip =>
      rw [List.cons_append]
      simp only [calls_ok, ih, and_assoc]

/-- What every peer list reached from a list in order keeps: `size` is the number of
its nodes, the addresses are 32-bit values, the `ip` field of `head` is unchanged. -/
theorem run_calls_inv (calls : List peer_call) :
    ∀ list : peer_list, calls_ok calls → list.size = list.nodes.length →
      (∀ x ∈ list.nodes, x.ip < UINT32) → list.nodes.length + calls.length < UINT32 →
      (run_calls list calls).size = (run_calls list calls).nodes.length ∧
      (∀ x ∈ (run_calls list calls).nodes, x.ip < UINT32) ∧
      (run_calls list calls).nodes.length ≤ list.nodes.length + calls.length ∧
      (run_calls list calls).head_ip = list.head_ip := by
  induction calls with
  | nil => intro list _ hs hip _; exact ⟨hs, hip, by simp [run_calls], rfl⟩
  | cons c calls ih =>
    intro list hok hs hip hlen
    simp only [List.length_cons] at hlen
    cases c with
    | add ip sock =>
      simp only [calls_ok] at hok
      have hn : (add_peer list ip sock).nodes.length = list.nodes.length + 1 := by
        simp only [add_peer, list_to_str, List.length_append, List.length_cons, List.length_nil]
      have hz : (add_peer list ip sock).size = list.nodes.length + 1 := by
        show (list.size + 1) % UINT32 = list.nodes.length + 1
        rw [hs]
        exact Nat.mod_eq_of_lt (by omega)
      have h := ih (add_peer list ip sock) hok.2 (by rw [hz, hn])
        (by intro x hx
            have hx1 : x ∈ list.nodes ++ [{ ip := ip, sock := sock }] := hx
            rcases List.mem_append.mp hx1 with hx2 | hx2
            · exact hip x hx2
            · rw [List.mem_singleton] at hx2
              subst hx2; exact hok.1)
        (by rw [hn]; omega)
      rw [hn] at h
      refine ⟨h.1, h.2.1, ?_, h.2.2.2⟩
      show (run_calls (add_peer list ip sock) calls).nodes.length
        ≤ list.nodes.length + (calls.length + 1)
      have := h.2.2.1
      omega
    | remove ip =>
      simp only [calls_ok] at hok
      cases hu : unlink ip list.nodes with
      | none =>
        have e : remove_peer list ip = list := by simp only [remove_peer, hu]
        have h := ih list hok.2 hs hip (by omega)
        show (run_calls (remove_peer list ip) calls).size
            = (run_calls (remove_peer list ip) calls).nodes.length ∧
          (∀ x ∈ (run_calls (remove_peer list ip) calls).nodes, x.ip < UINT32) ∧
          (run_calls (remove_peer list ip) calls).nodes.length
            ≤ list.nodes.length + (calls.length + 1) ∧
          (run_calls (remove_peer list ip) calls).head_ip = list.head_ip
        rw [e]
        exact ⟨h.1, h.2.1, by have := h.2.2.1; omega, h.2.2.2⟩
      | some r =>
        obtain ⟨hr1, hr2⟩ := unlink_some ip list.nodes r hu
        have hn : (remove_peer list ip).nodes = r := by
          simp only [remove_peer, hu, list_to_str]
        have hz : (remove_peer list ip).size = r.length := by
          have e : (remove_peer list ip).size = (list.size + UINT32 - 1) % UINT32 := by
            simp only [remove_peer, hu, list_to_str]
          rw [e, hs]
          have : list.nodes.length + UINT32 - 1 = r.length + UINT32 := by omega
          rw [this, Nat.add_mod_right]
          exact Nat.mod_eq_of_lt (by omega)
        have hh : (remove_peer list ip).head_ip = list.head_ip := by
          simp only [remove_peer, hu, list_to_str]
        have h := ih (remove_peer list ip) hok.2 (by rw [hz, hn])
          (by rw [hn]; intro x hx; exact hip x (hr2 x hx))
          (by rw [hn]; omega)
        rw [hn, hh] at h
        refine ⟨h.1, h.2.1, ?_, h.2.2.2⟩
        show (run_calls (remove_peer list ip) calls).nodes.length
          ≤ list.nodes.length + (calls.length + 1)
        have := h.2.2.1
        omega

/-- C13 (as stated) fails on the list that `init_list` returns: after `add_peer` and
`remove_peer` of the address 127.0.0.1 the frame is the five bytes 2, 0, 0, 0, 0, where
it was the NULL pointer before; size and nodes are as before. -/
theorem add_remove_init_list :
    init_list.str = none ∧
    (remove_peer (add_peer init_list 16777343 4) 16777343).str = some [2, 0, 0, 0, 0] ∧
    (remove_peer (add_peer init_list 16777343 4) 16777343).size = init_list.size ∧
    (remove_peer (add_peer init_list 16777343 4) 16777343).nodes = init_list.nodes ∧
    remove_peer (add_peer init_list 16777343 4) 16777343 ≠ init_list := by
  decide

/-- C13 (amended). For every peer list and every address that no node of it has,
`add_peer` followed by `remove_peer` of that address leaves `size`, the nodes in their
order and the `ip` field of `head` as they were, and leaves in `str` the frame that
`list_to_str` computes for the list; so the whole list is as before whenever its `str`
was that frame already, as it is after any `add_peer` and any `remove_peer` that found
its address. -/
theorem add_remove_peer (list : peer_list) (ip sock : Nat) (hsize : list.size < UINT32)
    (hnew : ∀ x ∈ list.nodes, x.ip ≠ ip) :
    (remove_peer (add_peer list ip sock) ip).size = list.size ∧
    (remove_peer (add_peer list ip sock) ip).nodes = list.nodes ∧
    (remove_peer (add_peer list ip sock) ip).head_ip = list.head_ip ∧
    (remove_peer (add_peer list ip sock) ip).str = (list_to_str list).str ∧
    (list.str = (list_to_str list).str → remove_peer (add_peer list ip sock) ip = list) := by
  have hu := unlink_append_new ip sock list.nodes hnew
  have hs : ((list.size + 1) % UINT32 + UINT32 - 1) % UINT32 = list.size := by
    unfold UINT32 at *
    omega
  have e : remove_peer (add_peer list ip sock) ip
      = { head_ip := list.head_ip, nodes := list.nodes, size := list.size,
          str := (list_to_str list).str } := by
    simp only [remove_peer, add_peer, list_to_str, hu, hs]
  rw [e]
  refine ⟨rfl, rfl, rfl, rfl, ?_⟩
  intro hstr
  rw [← hstr]

/-- Witness of C13 (amended): the list that holds 127.0.0.1, to which 127.0.0.2 is
added and from which it is removed again. -/
theorem add_remove_peer_witness :
    (add_peer init_list 16777343 4).size < UINT32 ∧
    (∀ x ∈ (add_peer init_list 16777343 4).nodes, x.ip ≠ 33554559) ∧
    (add_peer init_list 16777343 4).str = (list_to_str (add_peer init_list 16777343 4)).str ∧
    remove_peer (add_peer (add_peer init_list 16777343 4) 33554559 5) 33554559
      = add_peer init_list 16777343 4 :=
  ⟨by decide, by decide, by decide,
    (add_remove_peer (add_peer init_list 16777343 4) 33554559 5 (by decide) (by decide)).2.2.2.2
      (by decide)⟩

theorem is_connected_loop_iff (ip : Nat) (ips : List Nat) :
    is_connected_loop ip ips = 1 ↔ ip ∈ ips := by
  induction ips with
  | nil => simp [is_connected_loop]
  | cons x rest ih =>
    simp only [is_connected_loop, List.mem_cons]
    by_cases hx : x = ip
    · simp [hx]
    · rw [if_neg hx, ih]
      constructor
      · intro h; exact Or.inr h
      · intro h
        rcases h with h | h
        · exact absurd h.symm hx
        · exact h

/-- For an address other than the `ip` field of `head`, `is_connected` returns 1 exactly
when a node of the list has the address. -/
theorem is_connected_iff (list : peer_list) (ip : Nat) (h : ip ≠ list.head_ip) :
    is_connected list ip = 1 ↔ ∃ x ∈ list.nodes, x.ip = ip := by
  unfold is_connected
  rw [is_connected_loop_iff, List.mem_cons, List.mem_map]
  constructor
  · intro h1
    rcases h1 with h1 | ⟨x, hx, hxi⟩
    · exact absurd h1 h
    · exact ⟨x, hx, hxi⟩
  · intro ⟨x, hx, hxi⟩
    exact Or.inr ⟨x, hx, hxi⟩

theorem run_calls_head_ip (calls : List peer_call) :
    ∀ list : peer_list, (run_calls list calls).head_ip = list.head_ip := by
  induction calls with
  | nil => intro list; rfl
  | cons c calls ih =>
    intro list
    cases c with
    | add ip sock =>
      show (run_calls (add_peer list ip sock) calls).head_ip = list.head_ip
      rw [ih]
      rfl
    | remove ip =>
      show (run_calls (remove_peer list ip) calls).head_ip = list.head_ip
      rw [ih]
      unfold remove_peer
      cases unlink ip list.nodes with
      | none => rfl
      | some r => rfl

/-- C14. On the list that `init_list` returns, which holds no peer, `is_connected`
returns 1 for the address 0, the value of the `ip` field of the node `head`, at which
its search starts; and so it does on every list built from it by calls of `add_peer`
and `remove_peer`, whether a peer has the address 0 or not. -/
theorem is_connected_zero :
    init_list.nodes = [] ∧ is_connected init_list 0 = 1 ∧
    ∀ calls : List peer_call, is_connected (run_calls init_list calls) 0 = 1 := by
  refine ⟨rfl, rfl, ?_⟩
  intro calls
  unfold is_connected
  rw [run_calls_head_ip]
  rfl

/-- C15. After every `add_peer`, and after every `remove_peer` of an address that a
node has, on a list built from `init_list` by such calls with 32-bit addresses: the
frame `str` has 5 + 4 * size bytes, byte 0 is 2, bytes 1 to 4 are `size` with the
high-order byte first, and the four bytes at 5 + 4 * j are the address of node `j`
(from 0, in the order of insertion) with the low-order byte first, from which the
expression of `process_peerlist` computes the address back. -/
theorem add_remove_frame_layout (calls : List peer_call) (c : peer_call)
    (hok : calls_ok (calls ++ [c])) (hlen : 5 + 4 * (calls.length + 1) < UINT32)
    (hc : ∀ ip, c = peer_call.remove ip → ∃ x ∈ (run_calls init_list calls).nodes, x.ip = ip) :
    frame_layout (run_calls init_list (calls ++ [c])) := by
  rw [calls_ok_append] at hok
  have h0 : init_list.nodes.length = 0 := rfl
  obtain ⟨hs, hip, hle, _⟩ := run_calls_inv calls init_list hok.1 rfl
    (by intro x hx; cases hx) (by rw [h0]; unfold UINT32 at *; omega)
  rw [h0, Nat.zero_add] at hle
  rw [run_calls_append]
  generalize run_calls init_list calls = list at hs hip hle hc
  cases c with
  | add ip sock =>
    simp only [calls_ok] at hok
    have hm : (list.size + 1) % UINT32 = list.nodes.length + 1 := by
      rw [hs]; exact Nat.mod_eq_of_lt (by unfold UINT32 at *; omega)
    apply list_to_str_layout
    · simp only [List.length_append, List.length_cons, List.length_nil, hm]
    · show 5 + 4 * ((list.size + 1) % UINT32) < UINT32
      rw [hm]; omega
    · intro x hx
      simp only [List.mem_append, List.mem_singleton] at hx
      rcases hx with hx | hx
      · exact hip x hx
      · subst hx; exact hok.2.1
  | remove ip =>
    obtain ⟨r, hu⟩ := unlink_of_mem ip list.nodes (hc ip rfl)
    obtain ⟨hr1, hr2⟩ := unlink_some ip list.nodes r hu
    have e : run_calls list [peer_call.remove ip]
        = list_to_str { list with nodes := r, size := (list.size + UINT32 - 1) % UINT32 } := by
      simp only [run_calls, remove_peer, hu]
    have hm : (list.size + UINT32 - 1) % UINT32 = r.length := by
      have : list.size + UINT32 - 1 = r.length + UINT32 := by omega
      rw [this, Nat.add_mod_right]
      exact Nat.mod_eq_of_lt (by unfold UINT32 at *; omega)
    rw [e]
    apply list_to_str_layout
    · exact hm
    · show 5 + 4 * ((list.size + UINT32 - 1) % UINT32) < UINT32
      rw [hm]; omega
    · intro x hx
      exact hip x (hr2 x hx)

/-- Witness of C15: 127.0.0.1 and 127.0.0.2 are added, then 127.0.0.1 is removed. -/
theorem add_remove_frame_layout_witness :
    calls_ok ([peer_call.add 16777343 4, peer_call.add 33554559 5]
      ++ [peer_call.remove 16777343]) ∧
    (run_calls init_list ([peer_call.add 16777343 4, peer_call.add 33554559 5]
      ++ [peer_call.remove 16777343])).str = some [2, 0, 0, 0, 1, 127, 0, 0, 2] ∧
    frame_layout (run_calls init_list ([peer_call.add 16777343 4, peer_call.add 33554559 5]
      ++ [peer_call.remove 16777343])) :=
  ⟨by simp [calls_ok, UINT32], by decide,
    add_remove_frame_layout [peer_call.add 16777343 4, peer_call.add 33554559 5]
      (peer_call.remove 16777343) (by simp [calls_ok, UINT32]) (by decide)
      (by intro ip h
          cases h
          exact ⟨{ ip := 16777343, sock := 4 }, by decide, rfl⟩)⟩

/-! ## Handlers of ArchiveResponse that run concurrently -/

theorem recv_hello : recv_archive (arch_hello.str.drop 1) = some arch_hello := by
  decide

/-- C20. An interleaving of two handlers on a peer with the empty archive: handler 0
has received the archive of two messages, handler 1 the archive of one message.  Both
pass the test under the read lock while the active archive is empty; handler 0 then
replaces the active archive, which has size 2; handler 1 then replaces it by its
archive of size 1, which is not longer than the archive active at that moment: the
size of the active archive goes from 2 down to 1. -/
theorem run_replaces_by_shorter :
    recv_archive (arch_hello_world.str.drop 1) = some arch_hello_world ∧
    recv_archive (arch_hello.str.drop 1) = some arch_hello ∧
    run RFC1321.md5 1 race_start [action.handle 0, action.handle 1, action.handle 0]
      = { active_arch := arch_hello_world,
          handlers := [{ new_archive := arch_hello_world, pc := 2 },
                       { new_archive := arch_hello, pc := 1 }] } ∧
    run RFC1321.md5 1 race_start
        [action.handle 0, action.handle 1, action.handle 0, action.handle 1]
      = { active_arch := arch_hello,
          handlers := [{ new_archive := arch_hello_world, pc := 2 },
                       { new_archive := arch_hello, pc := 2 }] } ∧
    arch_hello_world.size = 2 ∧ arch_hello.size = 1 := by
  refine ⟨recv_hello_world, recv_hello, ?_, ?_, rfl, rfl⟩
  · decide!
  · decide!

/-! ## One byte of a received archive changed -/

